import Mathlib

/-!
# Verification of the lzo1z codec (greedy LZO1Z compressor and decoder)

This file gives a shallow embedding, in Lean 4, of the Go package `lzo1z`:
the decoder state machine `Decompress` and the greedy encoder `Compress`
with its helpers `emitLiterals`, `emitMatch`, `compressLiteralsOnly` and
`MaxCompressedSize`.  Byte buffers are modelled as `List Nat` (each entry a
byte value `< 256`); Go slice reads and writes are modelled with checked
accesses, where an access the Go runtime would reject (index out of range,
i.e. a panic) surfaces as the distinguished result `oob`.  Loops are
modelled with explicit fuel; exhausting the fuel surfaces as the
distinguished result `fuelOut`, and we prove the fuel bounds we pass are
always sufficient.
-/

namespace Lzo1z

/-- Algorithm constants, from the source. -/
def m2MaxOffset : Nat := 0x0700

def m4MaxOffset : Nat := 0x4000

/-- Result kind of `Decompress`.  The first four constructors are the four
documented results (nil error and the three overrun errors).  `oob` models a
Go runtime panic from an out-of-range slice access, and `fuelOut` models
exhaustion of the explicit iteration budget; we prove neither occurs. -/
inductive DErr where
  | ok
  | inputOverrun
  | outputOverrun
  | lookbehindOverrun
  | oob
  | fuelOut
deriving DecidableEq, Repr

/-- The decoder state-machine states (`stateStart` … `stateEOF` in the
source). -/
inductive DTag where
  | start
  | literalRun
  | firstLiteralRun
  | mtch
  | matchDone
  | matchNext
  | eof
deriving DecidableEq, Repr

/-- Decoder machine state: input cursor, output cursor, output buffer,
last match offset, and the state tag. -/
structure DState where
  ip : Nat
  op : Nat
  dst : List Nat
  lastMOff : Nat
  tag : DTag
deriving DecidableEq, Repr

/-- Copy `n` literal bytes from `src` starting at `ip` into `dst` starting
at `op` (the decoder's literal copy loops).  `none` models a Go panic. -/
def copyLit (src : List Nat) : Nat → Nat → Nat → List Nat → Option (List Nat)
  | 0, _, _, dst => some dst
  | n + 1, ip, op, dst =>
    match src[ip]? with
    | none => none
    | some b =>
      if op < dst.length then copyLit src n (ip + 1) (op + 1) (dst.set op b)
      else none

/-- Copy `n` bytes inside `dst` from `mPos` to `op`, byte by byte from low
to high index (the decoder's lookbehind copy loops; overlapping regions
feed forward exactly as in the source). -/
def copyMatch : Nat → Nat → Nat → List Nat → Option (List Nat)
  | 0, _, _, dst => some dst
  | n + 1, mPos, op, dst =>
    match dst[mPos]? with
    | none => none
    | some b =>
      if op < dst.length then copyMatch n (mPos + 1) (op + 1) (dst.set op b)
      else none

/-- Number of leading zero bytes of a list: models the decoder's
extended-length loops `for ip < inLen && src[ip] == 0`. -/
def countZeros : List Nat → Nat
  | [] => 0
  | b :: r => if b = 0 then countZeros r + 1 else 0

/-- The decoder's M2 copy length: `mLen := ((t >> 5) - 1) + 2`. -/
def m2MatchLen (t : Nat) : Nat := ((t >>> 5) - 1) + 2

/-- One step of the decoder either continues in a new state or finishes
with a byte count, a final buffer, and a result kind. -/
inductive DStep where
  | cont (s : DState)
  | done (op : Nat) (dst : List Nat) (e : DErr)
deriving DecidableEq, Repr

/-- Shared tail of the four match families: lookbehind check, output
check, lookbehind copy, transition to `matchDone`. -/
def finishMatch (s : DState) (ip mOff mLen lastM : Nat) : DStep :=
  if mOff > s.op then .done s.op s.dst .lookbehindOverrun
  else if s.op + mLen > s.dst.length then .done s.op s.dst .outputOverrun
  else
    match copyMatch mLen (s.op - mOff) s.op s.dst with
    | none => .done s.op s.dst .oob
    | some dst => .cont ⟨ip, s.op + mLen, dst, lastM, .matchDone⟩

/-- One iteration of the decoder's `for state != stateEOF` loop, mirroring
the `switch state` in `Decompress` case by case. -/
def dstep (src : List Nat) (s : DState) : DStep :=
  match s.tag with
  | .eof => .done s.op s.dst .ok
  | .start =>
    if s.ip < src.length then
      let t := src.getD s.ip 0
      if t > 17 then
        if s.op + (t - 17) > s.dst.length then .done s.op s.dst .outputOverrun
        else if s.ip + 1 + (t - 17) > src.length then .done s.op s.dst .inputOverrun
        else
          match copyLit src (t - 17) (s.ip + 1) s.op s.dst with
          | none => .done s.op s.dst .oob
          | some dst =>
            if t - 17 < 4 then
              .cont ⟨s.ip + 1 + (t - 17), s.op + (t - 17), dst, s.lastMOff, .matchNext⟩
            else
              .cont ⟨s.ip + 1 + (t - 17), s.op + (t - 17), dst, s.lastMOff, .firstLiteralRun⟩
      else .cont ⟨s.ip, s.op, s.dst, s.lastMOff, .literalRun⟩
    else .done s.op s.dst .inputOverrun
  | .literalRun =>
    if s.ip < src.length then
      let t := src.getD s.ip 0
      if t ≥ 16 then .cont ⟨s.ip, s.op, s.dst, s.lastMOff, .mtch⟩
      else
        if t = 0 then
          let z := countZeros (src.drop (s.ip + 1))
          if s.ip + 1 + z < src.length then
            let tt := 255 * z + 15 + src.getD (s.ip + 1 + z) 0
            if s.op + (tt + 3) > s.dst.length then .done s.op s.dst .outputOverrun
            else if s.ip + 2 + z + (tt + 3) > src.length then .done s.op s.dst .inputOverrun
            else
              match copyLit src (tt + 3) (s.ip + 2 + z) s.op s.dst with
              | none => .done s.op s.dst .oob
              | some dst =>
                .cont ⟨s.ip + 2 + z + (tt + 3), s.op + (tt + 3), dst, s.lastMOff,
                  .firstLiteralRun⟩
          else .done s.op s.dst .inputOverrun
        else
          if s.op + (t + 3) > s.dst.length then .done s.op s.dst .outputOverrun
          else if s.ip + 1 + (t + 3) > src.length then .done s.op s.dst .inputOverrun
          else
            match copyLit src (t + 3) (s.ip + 1) s.op s.dst with
            | none => .done s.op s.dst .oob
            | some dst =>
              .cont ⟨s.ip + 1 + (t + 3), s.op + (t + 3), dst, s.lastMOff, .firstLiteralRun⟩
    else .done s.op s.dst .inputOverrun
  | .firstLiteralRun =>
    if s.ip < src.length then
      let t := src.getD s.ip 0
      if t ≥ 16 then .cont ⟨s.ip, s.op, s.dst, s.lastMOff, .mtch⟩
      else
        if s.ip + 1 < src.length then
          let b := src.getD (s.ip + 1) 0
          let mOff := (1 + m2MaxOffset) + (t <<< 6) + (b >>> 2)
          if mOff > s.op then .done s.op s.dst .lookbehindOverrun
          else if s.op + 3 > s.dst.length then .done s.op s.dst .outputOverrun
          else
            match copyMatch 3 (s.op - mOff) s.op s.dst with
            | none => .done s.op s.dst .oob
            | some dst => .cont ⟨s.ip + 2, s.op + 3, dst, mOff, .matchDone⟩
        else .done s.op s.dst .inputOverrun
    else .done s.op s.dst .inputOverrun
  | .mtch =>
    if s.ip < src.length then
      let t := src.getD s.ip 0
      if t ≥ 64 then
        if t &&& 0x1f ≥ 0x1c then
          if s.lastMOff = 0 then .done s.op s.dst .lookbehindOverrun
          else finishMatch s (s.ip + 1) s.lastMOff (m2MatchLen t) s.lastMOff
        else
          if s.ip + 1 < src.length then
            let mOff := 1 + ((t &&& 0x1f) <<< 6) + (src.getD (s.ip + 1) 0 >>> 2)
            finishMatch s (s.ip + 2) mOff (m2MatchLen t) mOff
          else .done s.op s.dst .inputOverrun
      else if t ≥ 32 then
        if t &&& 31 = 0 then
          let z := countZeros (src.drop (s.ip + 1))
          if s.ip + 1 + z < src.length then
            let mLen := 255 * z + 31 + src.getD (s.ip + 1 + z) 0
            if s.ip + 4 + z > src.length then .done s.op s.dst .inputOverrun
            else
              let mOff := 1 + ((src.getD (s.ip + 2 + z) 0) <<< 6) +
                ((src.getD (s.ip + 3 + z) 0) >>> 2)
              finishMatch s (s.ip + 4 + z) mOff (mLen + 2) mOff
          else .done s.op s.dst .inputOverrun
        else
          if s.ip + 3 > src.length then .done s.op s.dst .inputOverrun
          else
            let mOff := 1 + ((src.getD (s.ip + 1) 0) <<< 6) + ((src.getD (s.ip + 2) 0) >>> 2)
            finishMatch s (s.ip + 3) mOff ((t &&& 31) + 2) mOff
      else if t ≥ 16 then
        if t &&& 7 = 0 then
          let z := countZeros (src.drop (s.ip + 1))
          if s.ip + 1 + z < src.length then
            let mLen := 255 * z + 7 + src.getD (s.ip + 1 + z) 0
            if s.ip + 4 + z > src.length then .done s.op s.dst .inputOverrun
            else
              let raw := ((t &&& 8) <<< 11) + ((src.getD (s.ip + 2 + z) 0) <<< 6) +
                ((src.getD (s.ip + 3 + z) 0) >>> 2)
              if raw = 0 then .cont ⟨s.ip + 4 + z, s.op, s.dst, s.lastMOff, .eof⟩
              else finishMatch s (s.ip + 4 + z) (raw + m4MaxOffset) (mLen + 2)
                (raw + m4MaxOffset)
          else .done s.op s.dst .inputOverrun
        else
          if s.ip + 3 > src.length then .done s.op s.dst .inputOverrun
          else
            let raw := ((t &&& 8) <<< 11) + ((src.getD (s.ip + 1) 0) <<< 6) +
              ((src.getD (s.ip + 2) 0) >>> 2)
            if raw = 0 then .cont ⟨s.ip + 3, s.op, s.dst, s.lastMOff, .eof⟩
            else finishMatch s (s.ip + 3) (raw + m4MaxOffset) ((t &&& 7) + 2)
              (raw + m4MaxOffset)
      else
        if s.ip + 1 < src.length then
          let mOff := 1 + (t <<< 6) + (src.getD (s.ip + 1) 0 >>> 2)
          finishMatch s (s.ip + 2) mOff 2 mOff
        else .done s.op s.dst .inputOverrun
    else .done s.op s.dst .inputOverrun
  | .matchDone =>
    if s.ip = 0 ∨ s.ip > src.length then .cont ⟨s.ip, s.op, s.dst, s.lastMOff, .literalRun⟩
    else
      let t := (src.getD (s.ip - 1) 0) &&& 3
      if t = 0 then .cont ⟨s.ip, s.op, s.dst, s.lastMOff, .literalRun⟩
      else
        if s.op + t > s.dst.length then .done s.op s.dst .outputOverrun
        else if s.ip + t > src.length then .done s.op s.dst .inputOverrun
        else
          match copyLit src t s.ip s.op s.dst with
          | none => .done s.op s.dst .oob
          | some dst => .cont ⟨s.ip + t, s.op + t, dst, s.lastMOff, .matchNext⟩
  | .matchNext => .cont ⟨s.ip, s.op, s.dst, s.lastMOff, .mtch⟩

/-- The decoder loop: iterate `dstep` with explicit fuel. -/
def dloop (src : List Nat) : Nat → DState → Nat × List Nat × DErr
  | 0, s => (s.op, s.dst, .fuelOut)
  | fuel + 1, s =>
    match dstep src s with
    | .done n dst e => (n, dst, e)
    | .cont s2 => dloop src fuel s2

/-- `Decompress src dst` returns the number of bytes written, the final
output buffer, and the result kind; mirrors `Decompress` in the source. -/
def Decompress (src dst : List Nat) : Nat × List Nat × DErr :=
  if src.length = 0 then (0, dst, .ok)
  else dloop src (3 * src.length + 4) ⟨0, 0, dst, 0, .start⟩

/-! ## Encoder embedding

The encoder writes its output sequentially, so we model the destination
buffer as the list of bytes written so far together with its capacity; the
Go write `dst[op] = v` at the current cursor becomes appending `v`, and a
write the Go runtime would reject (`op ≥ len(dst)`, a panic) surfaces as
`oob`. -/

/-- Result kind of the encoder.  `ok` and `outputOverrun` are the two
documented results; `oob` models a Go runtime panic from an out-of-range
slice write, `fuelOut` exhaustion of an explicit iteration budget. -/
inductive EErr where
  | ok
  | outputOverrun
  | oob
  | fuelOut
deriving DecidableEq, Repr

/-- Go `byte(e)` for a natural `e`. -/
def byteN (n : Nat) : Nat := n % 256

/-- Go `byte(e)` for an integer `e` (two's-complement low 8 bits). -/
def byteI (i : Int) : Nat := (i % 256).toNat

/-- An unchecked Go slice write `dst[op] = b` at cursor `op = out.length`
against capacity `cap`: `none` models the runtime panic. -/
def wr (cap : Nat) (out : List Nat) (b : Nat) : Option (List Nat) :=
  if out.length < cap then some (out ++ [b]) else none

/-- A sequence of unchecked writes. Returns the bytes written so far and
whether all writes were in range. -/
def wrList (cap : Nat) : List Nat → List Nat → List Nat × Bool
  | out, [] => (out, true)
  | out, b :: bs =>
    match wr cap out b with
    | none => (out, false)
    | some out2 => wrList cap out2 bs

/-- The extended-length successor-byte loop of `emitLiterals` (lines
206–221 of compress.go): every write is bounds-checked in the source. -/
def extLitChain (cap : Nat) : Nat → List Nat → Nat → List Nat × EErr
  | 0, out, _ => (out, .fuelOut)
  | fuel + 1, out, remaining =>
    if remaining > 255 then
      if out.length ≥ cap then (out, .outputOverrun)
      else extLitChain cap fuel (out ++ [0x00]) (remaining - 255)
    else
      if out.length ≥ cap then (out, .outputOverrun)
      else (out ++ [byteN remaining], .ok)

/-- The extended-length successor-byte loop of `emitMatch` (M3/M4): the
source performs these writes without any bounds check. -/
def extMatchChain (cap : Nat) : Nat → List Nat → Nat → List Nat × EErr
  | 0, out, _ => (out, .fuelOut)
  | fuel + 1, out, remaining =>
    if remaining > 255 then
      match wr cap out 0x00 with
      | none => (out, .oob)
      | some out2 => extMatchChain cap fuel out2 (remaining - 255)
    else
      match wr cap out (byteN remaining) with
      | none => (out, .oob)
      | some out2 => (out2, .ok)

/-- The final literal-byte copy of `emitLiterals` (checked, then
`copy(dst[op:], lit)`). -/
def emitLitFinish (out lit : List Nat) (cap : Nat) : List Nat × EErr :=
  if out.length + lit.length > cap then (out, .outputOverrun)
  else (out ++ lit, .ok)

/-- `emitLiterals(lit, dst, isFirst)` against a destination of capacity
`cap`; mirrors compress.go lines 167–263.  The write of the `0x00` marker
in the non-first extended branch (line 237) is unchecked in the source and
is therefore modelled with `wr`. -/
def emitLiterals (lit : List Nat) (cap : Nat) (isFirst : Bool) : List Nat × EErr :=
  if lit.length = 0 then ([], .ok)
  else if isFirst = true ∧ lit.length ≤ 238 then
    if lit.length ≤ 3 then
      if 1 + lit.length > cap then ([], .outputOverrun)
      else emitLitFinish [byteN (lit.length + 17)] lit cap
    else if lit.length ≤ 18 then
      if 1 + lit.length > cap then ([], .outputOverrun)
      else emitLitFinish [byteI ((lit.length : Int) - 3)] lit cap
    else
      if 2 + lit.length > cap then ([], .outputOverrun)
      else if lit.length - 18 ≤ 255 then
        emitLitFinish [0x00, byteN (lit.length - 18)] lit cap
      else
        match extLitChain cap lit.length [0x00] (lit.length - 18) with
        | (out, .ok) => emitLitFinish out lit cap
        | (out, e) => (out, e)
  else
    if lit.length ≤ 18 then
      if 1 + lit.length > cap then ([], .outputOverrun)
      else emitLitFinish [byteI ((lit.length : Int) - 3)] lit cap
    else
      match wr cap [] 0x00 with
      | none => ([], .oob)
      | some out0 =>
        match extLitChain cap lit.length out0 (lit.length - 18) with
        | (out, .ok) => emitLitFinish out lit cap
        | (out, e) => (out, e)

/-- `emitMatch(dst, offset, length)` against a destination of capacity
`cap`; mirrors compress.go lines 267–369.  Beyond the entry check
`len(dst) < 4` the source performs every write unchecked, so each write is
modelled with `wr`/`wrList`. -/
def emitMatch (cap : Nat) (offset length : Nat) : List Nat × EErr :=
  if cap < 4 then ([], .outputOverrun)
  else if 3 ≤ length ∧ length ≤ 4 ∧ 1 ≤ offset ∧ offset ≤ 0x700 then
    match wrList cap [] [byteN (((length - 1) <<< 5) ||| (((offset - 1) >>> 6) &&& 0x1f)),
        byteN (((offset - 1) &&& 0x3f) <<< 2)] with
    | (out, true) => (out, .ok)
    | (out, false) => (out, .oob)
  else if 3 ≤ length ∧ 1 ≤ offset ∧ offset ≤ 0x4000 then
    match
      (if length ≤ 33 then
        match wr cap [] (byteN (0x20 ||| (length - 2))) with
        | none => ([], EErr.oob)
        | some out => (out, EErr.ok)
      else
        match wr cap [] 0x20 with
        | none => ([], EErr.oob)
        | some out => extMatchChain cap length out (length - 2 - 31)) with
    | (out, .ok) =>
      match wrList cap out [byteN (((offset - 1) >>> 6) &&& 0xff),
          byteN (((offset - 1) &&& 0x3f) <<< 2)] with
      | (out2, true) => (out2, .ok)
      | (out2, false) => (out2, .oob)
    | (out, e) => (out, e)
  else if 0x4000 < offset ∧ offset ≤ 0xbfff then
    match
      (if length ≤ 9 then
        match wr cap []
            (byteN (0x10 ||| (((offset - 0x4000) >>> 11) &&& 0x08) ||| (length - 2))) with
        | none => ([], EErr.oob)
        | some out => (out, EErr.ok)
      else
        match wr cap [] (byteN (0x10 ||| (((offset - 0x4000) >>> 11) &&& 0x08))) with
        | none => ([], EErr.oob)
        | some out => extMatchChain cap length out (length - 2 - 7)) with
    | (out, .ok) =>
      match wrList cap out [byteN (((offset - 0x4000) >>> 6) &&& 0xff),
          byteN (((offset - 0x4000) &&& 0x3f) <<< 2)] with
      | (out2, true) => (out2, .ok)
      | (out2, false) => (out2, .oob)
    | (out, e) => (out, e)
  else ([], .outputOverrun)

/-- The multiplicative hash of the four bytes at position `p` (32-bit
wrap-around arithmetic, 14-bit result). -/
def hashAt (src : List Nat) (p : Nat) : Nat :=
  if p + 4 > src.length then 0
  else
    (((src.getD p 0 ||| (src.getD (p + 1) 0) <<< 8 ||| (src.getD (p + 2) 0) <<< 16 |||
        (src.getD (p + 3) 0) <<< 24) * 0x1e35a7bd) % 4294967296) >>> 18 &&& 0x3fff

/-- Store `v` in hash-table slot `k`. -/
def htSet (ht : Nat → Int) (k : Nat) (v : Int) : Nat → Int :=
  fun i => if i = k then v else ht i

/-- The encoder's match-extension loop: extend `m` while below `maxLen`
and the bytes at `ref+m` and `ip+m` agree. -/
def extendLen (src : List Nat) (ref ip maxLen : Nat) : Nat → Nat → Nat
  | 0, m => m
  | fuel + 1, m =>
    if m < maxLen ∧ src.getD (ref + m) 0 = src.getD (ip + m) 0 then
      extendLen src ref ip maxLen fuel (m + 1)
    else m

/-- The hash-table refresh loop after an accepted match:
`for i := ip-matchLen+1; i < ip && i < inLen-4; i++`. -/
def refreshHT (src : List Nat) : Nat → Nat → Nat → (Nat → Int) → (Nat → Int)
  | 0, _, _, ht => ht
  | fuel + 1, i, stop, ht =>
    if i < stop ∧ i < src.length - 4 then
      refreshHT src fuel (i + 1) stop (htSet ht (hashAt src i) (i : Int))
    else ht

/-- Ghost record of one encoder emission (used to state invariants about
what the encoder emits; the byte output is unaffected by it). -/
inductive CEmit where
  | lits (isFirst : Bool) (len : Nat)
  | mtch (offset length : Nat)
deriving DecidableEq, Repr

/-- Encoder loop state: hash table, input cursor, start of the pending
literal run, first-output flag, bytes written so far, and the ghost
emission trace. -/
structure CState where
  ht : Nat → Int
  ip : Nat
  litStart : Nat
  isFirstOutput : Bool
  out : List Nat
  trace : List CEmit

/-- Result of the encoder main loop: fell out of the loop normally, or
aborted with an emitter error. -/
inductive CRes where
  | cont (s : CState)
  | fail (out : List Nat) (trace : List CEmit) (e : EErr)

/-- The main compression loop of `Compress` (compress.go lines 52–120),
one fuel unit per iteration. -/
def compressLoop (src : List Nat) (dstLen : Nat) : Nat → CState → CRes
  | 0, s => .fail s.out s.trace .fuelOut
  | fuel + 1, s =>
    if s.ip < src.length - 3 then
      let h := hashAt src s.ip
      let ref := s.ht h
      let ht2 := htSet s.ht h (s.ip : Int)
      if ((s.ip : Int) - ref > 0 ∧ (s.ip : Int) - ref ≤ 0xbfff ∧ ref ≥ 0 ∧
          s.ip + 4 ≤ src.length) ∧
          (src.getD ref.toNat 0 = src.getD s.ip 0 ∧
           src.getD (ref.toNat + 1) 0 = src.getD (s.ip + 1) 0 ∧
           src.getD (ref.toNat + 2) 0 = src.getD (s.ip + 2) 0) then
        let maxLen := min (src.length - s.ip) 264
        let matchLen := extendLen src ref.toNat s.ip maxLen maxLen 3
        if s.isFirstOutput = false ∧ 0 < s.ip - s.litStart ∧ s.ip - s.litStart < 4 then
          compressLoop src dstLen fuel
            { s with ht := ht2, ip := s.ip + 1 }
        else if 0 < src.length - (s.ip + matchLen) ∧
            src.length - (s.ip + matchLen) < 4 then
          compressLoop src dstLen fuel
            { s with ht := ht2, ip := s.ip + 1 }
        else
          let litLen := s.ip - s.litStart
          let litRec : List CEmit :=
            if 0 < litLen then [.lits s.isFirstOutput litLen] else []
          match (if 0 < litLen then
              emitLiterals ((src.drop s.litStart).take litLen)
                (dstLen - s.out.length) s.isFirstOutput
            else ([], .ok)) with
          | (_, .outputOverrun) => .fail s.out (s.trace ++ litRec) .outputOverrun
          | (_, .oob) => .fail s.out (s.trace ++ litRec) .oob
          | (_, .fuelOut) => .fail s.out (s.trace ++ litRec) .fuelOut
          | (w, .ok) =>
            match emitMatch (dstLen - (s.out.length + w.length))
                ((s.ip : Int) - ref).toNat matchLen with
            | (_, .outputOverrun) =>
              .fail (s.out ++ w) (s.trace ++ litRec ++
                [.mtch ((s.ip : Int) - ref).toNat matchLen]) .outputOverrun
            | (_, .oob) =>
              .fail (s.out ++ w) (s.trace ++ litRec ++
                [.mtch ((s.ip : Int) - ref).toNat matchLen]) .oob
            | (_, .fuelOut) =>
              .fail (s.out ++ w) (s.trace ++ litRec ++
                [.mtch ((s.ip : Int) - ref).toNat matchLen]) .fuelOut
            | (w2, .ok) =>
              compressLoop src dstLen fuel
                { ht := refreshHT src matchLen (s.ip + 1) (s.ip + matchLen) ht2,
                  ip := s.ip + matchLen,
                  litStart := s.ip + matchLen,
                  isFirstOutput := false,
                  out := s.out ++ w ++ w2,
                  trace := s.trace ++ litRec ++
                    [.mtch ((s.ip : Int) - ref).toNat matchLen] }
      else
        compressLoop src dstLen fuel { s with ht := ht2, ip := s.ip + 1 }
    else .cont s

/-- Full encoder: output bytes, ghost emission trace, result kind.
Mirrors `Compress` (and `compressLiteralsOnly` for inputs of at most three
bytes). -/
def compressFull (src : List Nat) (dstLen : Nat) : List Nat × List CEmit × EErr :=
  if src.length = 0 then ([], [], .ok)
  else if src.length ≤ 3 then
    match emitLiterals src dstLen true with
    | (_, .outputOverrun) => ([], [.lits true src.length], .outputOverrun)
    | (_, .oob) => ([], [.lits true src.length], .oob)
    | (_, .fuelOut) => ([], [.lits true src.length], .fuelOut)
    | (w, .ok) =>
      if w.length + 3 > dstLen then (w, [.lits true src.length], .outputOverrun)
      else (w ++ [0x11, 0x00, 0x00], [.lits true src.length], .ok)
  else
    match compressLoop src dstLen src.length
        ⟨fun _ => -(0xbfff : Int), 0, 0, true, [], []⟩ with
    | .fail out tr e => (out, tr, e)
    | .cont s =>
      let litLen := src.length - s.litStart
      let litRec : List CEmit :=
        if 0 < litLen then [.lits s.isFirstOutput litLen] else []
      match (if 0 < litLen then
          emitLiterals (src.drop s.litStart) (dstLen - s.out.length) s.isFirstOutput
        else ([], .ok)) with
      | (_, .outputOverrun) => (s.out, s.trace ++ litRec, .outputOverrun)
      | (_, .oob) => (s.out, s.trace ++ litRec, .oob)
      | (_, .fuelOut) => (s.out, s.trace ++ litRec, .fuelOut)
      | (w, .ok) =>
        if s.out.length + w.length + 3 > dstLen then
          (s.out ++ w, s.trace ++ litRec, .outputOverrun)
        else (s.out ++ w ++ [0x11, 0x00, 0x00], s.trace ++ litRec, .ok)

/-- `Compress src dst` as in the source: number of bytes written and the
result kind (`compressFull` additionally exposes the bytes and the ghost
trace). -/
def Compress (src : List Nat) (dstLen : Nat) : Nat × EErr :=
  ((compressFull src dstLen).1.length, (compressFull src dstLen).2.2)

/-- `MaxCompressedSize` from the source. -/
def MaxCompressedSize (n : Nat) : Nat :=
  if n = 0 then 3 else n + n / 16 + 64 + 3

end Lzo1z
namespace Lzo1z

/-- `finishMatch` continues only after passing both checks, with the
output cursor advanced by exactly the copy length. -/
theorem finishMatch_cont {s : DState} {ip mOff mLen lastM : Nat} {s2 : DState}
    (h : finishMatch s ip mOff mLen lastM = .cont s2) :
    s2.op = s.op + mLen ∧ s2.ip = ip ∧ s2.tag = .matchDone ∧ s2.lastMOff = lastM ∧
      mOff ≤ s.op ∧ s.op + mLen ≤ s.dst.length := by
  unfold finishMatch at h
  split at h
  · exact absurd h (by simp)
  · split at h
    · exact absurd h (by simp)
    · split at h
      · exact absurd h (by simp)
      · cases h
        refine ⟨rfl, rfl, rfl, rfl, by omega, by omega⟩

theorem m2MatchLen_range : ∀ t < 256, 64 ≤ t →
    3 ≤ m2MatchLen t ∧ m2MatchLen t ≤ 8 ∧ m2MatchLen t = t >>> 5 + 1 := by
  intro t ht h64
  unfold m2MatchLen
  rw [Nat.shiftRight_eq_div_pow]
  norm_num
  omega

/-- C5: parsing an M2 tag with low five bits at least 0x1c reads no extra
offset byte and reuses `lastMOff`; with `lastMOff = 0` this is a
lookbehind overrun. -/
theorem c5_m2_offset_reuse (src : List Nat) (s : DState)
    (htag : s.tag = DTag.mtch) (hip : s.ip < src.length)
    (h64 : 64 ≤ src.getD s.ip 0) (hreuse : 0x1c ≤ src.getD s.ip 0 &&& 0x1f) :
    (s.lastMOff = 0 → dstep src s = .done s.op s.dst .lookbehindOverrun) ∧
    (s.lastMOff ≠ 0 →
      dstep src s =
        finishMatch s (s.ip + 1) s.lastMOff (m2MatchLen (src.getD s.ip 0)) s.lastMOff) := by
  obtain ⟨ip, op, dst, lastM, tag⟩ := s
  simp only at htag hip h64 hreuse ⊢
  subst htag
  constructor
  · intro h0
    simp only [dstep, if_pos hip, if_pos h64, if_pos hreuse, if_pos h0]
  · intro h0
    simp only [dstep, if_pos hip, if_pos h64, if_pos hreuse, if_neg h0]


/-- C5 witness: a reuse-M2 tag (0x5f) with `lastMOff = 0` yields
`LookbehindOverrun`, and with `lastMOff = 1` proceeds via `finishMatch`
with the reused offset, consuming only the tag byte. -/
theorem c5_witness :
    dstep [0x5f] ⟨0, 5, List.replicate 8 0, 0, .mtch⟩ =
      .done 5 (List.replicate 8 0) .lookbehindOverrun ∧
    dstep [0x5f] ⟨0, 5, List.replicate 8 0, 1, .mtch⟩ =
      finishMatch ⟨0, 5, List.replicate 8 0, 1, .mtch⟩ 1 1 (m2MatchLen 0x5f) 1 :=
  ⟨(c5_m2_offset_reuse [0x5f] ⟨0, 5, List.replicate 8 0, 0, .mtch⟩ rfl (by decide)
      (by decide) (by decide)).1 rfl,
    (c5_m2_offset_reuse [0x5f] ⟨0, 5, List.replicate 8 0, 1, .mtch⟩ rfl (by decide)
      (by decide) (by decide)).2 (by decide)⟩

/-- C6 counterexample: the stream below contains a single M2 opcode with
tag 0x80; decoding succeeds with ten output bytes, because the M2 copy
length for tag 0x80 is five — not three or four as claimed. -/
theorem c6_counterexample :
    Decompress [0x16, 65, 66, 67, 68, 69, 0x80, 0x00, 0x11, 0x00, 0x00]
        (List.replicate 16 0) =
      (10, [65, 66, 67, 68, 69, 69, 69, 69, 69, 69, 0, 0, 0, 0, 0, 0], .ok) ∧
    ¬ (m2MatchLen 0x80 = 3 ∨ m2MatchLen 0x80 = 4) := by decide

/-- C6 amended: an M2 opcode (tag `t ≥ 64`) that completes its copy
advances the output cursor by exactly `((t >>> 5) - 1) + 2`, which equals
`t >>> 5 + 1` and lies between 3 and 8 (not always 3 or 4). -/
theorem c6_m2_copy_length (src : List Nat) (s s2 : DState)
    (htag : s.tag = DTag.mtch) (hip : s.ip < src.length)
    (h64 : 64 ≤ src.getD s.ip 0) (hbyte : src.getD s.ip 0 < 256)
    (hstep : dstep src s = .cont s2) :
    s2.op = s.op + m2MatchLen (src.getD s.ip 0) ∧
    3 ≤ m2MatchLen (src.getD s.ip 0) ∧ m2MatchLen (src.getD s.ip 0) ≤ 8 ∧
    m2MatchLen (src.getD s.ip 0) = src.getD s.ip 0 >>> 5 + 1 := by
  obtain ⟨ip, op, dst, lastM, tag⟩ := s
  simp only at htag hip h64 hbyte hstep ⊢
  subst htag
  have hrange := m2MatchLen_range (src.getD ip 0) hbyte h64
  refine ⟨?_, hrange.1, hrange.2.1, hrange.2.2⟩
  simp only [dstep, if_pos hip, if_pos h64] at hstep
  by_cases hr : 0x1c ≤ src.getD ip 0 &&& 0x1f
  · rw [if_pos hr] at hstep
    by_cases h0 : lastM = 0
    · rw [if_pos h0] at hstep
      exact absurd hstep (by simp)
    · rw [if_neg h0] at hstep
      exact (finishMatch_cont hstep).1
  · rw [if_neg hr] at hstep
    by_cases h2 : ip + 1 < src.length
    · rw [if_pos h2] at hstep
      exact (finishMatch_cont hstep).1
    · rw [if_neg h2] at hstep
      exact absurd hstep (by simp)


/-- C6 amended witness: concrete M2 opcode with tag 0x80 copying five
bytes. -/
theorem c6_witness :
    (10 : Nat) = 5 + m2MatchLen (List.getD [0x16, 65, 66, 67, 68, 69, 0x80, 0x00,
        0x11, 0x00, 0x00] 6 0) ∧
    3 ≤ m2MatchLen (List.getD [0x16, 65, 66, 67, 68, 69, 0x80, 0x00, 0x11, 0x00, 0x00] 6 0) ∧
    m2MatchLen (List.getD [0x16, 65, 66, 67, 68, 69, 0x80, 0x00, 0x11, 0x00, 0x00] 6 0) ≤ 8 ∧
    m2MatchLen (List.getD [0x16, 65, 66, 67, 68, 69, 0x80, 0x00, 0x11, 0x00, 0x00] 6 0) =
      List.getD [0x16, 65, 66, 67, 68, 69, 0x80, 0x00, 0x11, 0x00, 0x00] 6 0 >>> 5 + 1 := by
  have h := c6_m2_copy_length [0x16, 65, 66, 67, 68, 69, 0x80, 0x00, 0x11, 0x00, 0x00]
    ⟨6, 5, [65, 66, 67, 68, 69, 0, 0, 0, 0, 0, 0, 0, 0, 0, 0, 0], 0, .mtch⟩
    ⟨8, 10, [65, 66, 67, 68, 69, 69, 69, 69, 69, 69, 0, 0, 0, 0, 0, 0], 1, .matchDone⟩
    rfl (by decide) (by decide) (by decide) (by decide)
  exact h

/-- C7 counterexample: in the stream below, the reuse-M2 opcode 0x5d
(low five bits 0x1d ≥ 0x1c) is followed by the `MatchDone` step copying
one trailing literal byte (0x4c = 76) — the run as a whole decodes
successfully with that literal in the output.  The state on the left of
the first conjunct is exactly the state the decoder reaches right after
the reuse-M2 opcode. -/
theorem c7_counterexample :
    dstep [0x16, 65, 66, 67, 68, 69, 0x40, 0x00, 0x5d, 0x4c, 0x11, 0x00, 0x00]
        ⟨9, 11, [65, 66, 67, 68, 69, 69, 69, 69, 69, 69, 69, 0, 0, 0, 0, 0], 1,
          .matchDone⟩ =
      .cont ⟨10, 12, [65, 66, 67, 68, 69, 69, 69, 69, 69, 69, 69, 76, 0, 0, 0, 0], 1,
        .matchNext⟩ ∧
    Decompress [0x16, 65, 66, 67, 68, 69, 0x40, 0x00, 0x5d, 0x4c, 0x11, 0x00, 0x00]
        (List.replicate 16 0) =
      (12, [65, 66, 67, 68, 69, 69, 69, 69, 69, 69, 69, 76, 0, 0, 0, 0], .ok) := by decide

/-- C7 amended: after a successful reuse-M2 step with tag `t`, the
decoder is in `MatchDone` with the tag byte as the last consumed input
byte, so it copies `t &&& 3` trailing literals: none when `t &&& 3 = 0`
(equivalently `(t &&& 0x1f) = 0x1c`), and `t &&& 3` bytes otherwise. -/
theorem c7_reuse_trailing (src : List Nat) (s s2 : DState)
    (htag : s.tag = DTag.mtch) (hip : s.ip < src.length)
    (h64 : 64 ≤ src.getD s.ip 0) (hreuse : 0x1c ≤ src.getD s.ip 0 &&& 0x1f)
    (hstep : dstep src s = .cont s2) :
    s2.tag = DTag.matchDone ∧ s2.ip = s.ip + 1 ∧
    (src.getD s.ip 0 &&& 3 = 0 →
      dstep src s2 = .cont ⟨s2.ip, s2.op, s2.dst, s2.lastMOff, .literalRun⟩) ∧
    (∀ s3, dstep src s2 = .cont s3 → s3.tag = DTag.matchNext →
      s3.op = s2.op + (src.getD s.ip 0 &&& 3)) := by
  obtain ⟨ip, op, dst, lastM, tag⟩ := s
  simp only at htag hip h64 hreuse hstep ⊢
  subst htag
  simp only [dstep, if_pos hip, if_pos h64, if_pos hreuse] at hstep
  by_cases h0 : lastM = 0
  · rw [if_pos h0] at hstep
    exact absurd hstep (by simp)
  rw [if_neg h0] at hstep
  have hfin := finishMatch_cont hstep
  obtain ⟨ip2, op2, dst2, lm2, tag2⟩ := s2
  simp only at hfin ⊢
  obtain ⟨-, hip2, htag2, -, -, -⟩ := hfin
  subst htag2 hip2
  have hnz : ¬ (ip + 1 = 0 ∨ ip + 1 > src.length) := by omega
  constructor
  · rfl
  constructor
  · rfl
  constructor
  · intro h3
    simp only [dstep, if_neg hnz, Nat.add_sub_cancel, h3]
    simp
  · intro s3 hstep2 htag3
    simp only [dstep, if_neg hnz, Nat.add_sub_cancel] at hstep2
    by_cases h3 : src.getD ip 0 &&& 3 = 0
    · rw [if_pos h3] at hstep2
      cases hstep2
      simp at htag3
    · rw [if_neg h3] at hstep2
      split at hstep2
      · exact absurd hstep2 (by simp)
      · split at hstep2
        · exact absurd hstep2 (by simp)
        · split at hstep2
          · exact absurd hstep2 (by simp)
          · cases hstep2
            rfl

/-- C7 amended witness: the reuse-M2 opcode 0x5d in the counterexample
stream carries one trailing literal (`0x5d &&& 3 = 1`). -/
theorem c7_witness :
    (⟨9, 11, [65, 66, 67, 68, 69, 69, 69, 69, 69, 69, 69, 0, 0, 0, 0, 0], 1,
        .matchDone⟩ : DState).tag = DTag.matchDone ∧
    (⟨9, 11, [65, 66, 67, 68, 69, 69, 69, 69, 69, 69, 69, 0, 0, 0, 0, 0], 1,
        .matchDone⟩ : DState).ip = 8 + 1 ∧
    (List.getD [0x16, 65, 66, 67, 68, 69, 0x40, 0x00, 0x5d, 0x4c, 0x11, 0x00, 0x00] 8 0 &&& 3
        = 0 →
      dstep [0x16, 65, 66, 67, 68, 69, 0x40, 0x00, 0x5d, 0x4c, 0x11, 0x00, 0x00]
          ⟨9, 11, [65, 66, 67, 68, 69, 69, 69, 69, 69, 69, 69, 0, 0, 0, 0, 0], 1,
            .matchDone⟩ =
        .cont ⟨9, 11, [65, 66, 67, 68, 69, 69, 69, 69, 69, 69, 69, 0, 0, 0, 0, 0], 1,
          .literalRun⟩) ∧
    (∀ s3, dstep [0x16, 65, 66, 67, 68, 69, 0x40, 0x00, 0x5d, 0x4c, 0x11, 0x00, 0x00]
          ⟨9, 11, [65, 66, 67, 68, 69, 69, 69, 69, 69, 69, 69, 0, 0, 0, 0, 0], 1,
            .matchDone⟩ = .cont s3 → s3.tag = DTag.matchNext →
      s3.op = 11 + (List.getD [0x16, 65, 66, 67, 68, 69, 0x40, 0x00, 0x5d, 0x4c, 0x11,
        0x00, 0x00] 8 0 &&& 3)) :=
  c7_reuse_trailing [0x16, 65, 66, 67, 68, 69, 0x40, 0x00, 0x5d, 0x4c, 0x11, 0x00, 0x00]
    ⟨8, 8, [65, 66, 67, 68, 69, 69, 69, 69, 0, 0, 0, 0, 0, 0, 0, 0], 1, .mtch⟩
    ⟨9, 11, [65, 66, 67, 68, 69, 69, 69, 69, 69, 69, 69, 0, 0, 0, 0, 0], 1, .matchDone⟩
    rfl (by decide) (by decide) (by decide) (by decide)

set_option maxRecDepth 100000 in
/-- C3: at the failing input (the 239 strictly increasing bytes 0…238,
destination capacity 0) `Compress` neither succeeds nor returns
`OutputOverrun`: the unchecked write of the extended-length marker in
`emitLiterals` (compress.go line 237) is out of range, i.e. the Go code
panics. -/
theorem c3_failing_input :
    compressFull (List.range 239) 0 = ([], [CEmit.lits true 239], .oob) ∧
    Compress (List.range 239) 0 = (0, .oob) ∧
    emitLiterals (List.range 239) 0 true = ([], .oob) := by decide


theorem m2TagBits : ∀ hi < 32,
    (byteN ((2 <<< 5) ||| (hi &&& 0x1f)) &&& 0x1f = hi ∧
      64 ≤ byteN ((2 <<< 5) ||| (hi &&& 0x1f))) ∧
    (byteN ((3 <<< 5) ||| (hi &&& 0x1f)) &&& 0x1f = hi ∧
      64 ≤ byteN ((3 <<< 5) ||| (hi &&& 0x1f))) := by decide

/-- C9: in the M2 band (length 3–4, offset 1…0x700) `emitMatch` writes a
two-byte opcode whose tag has low five bits `(offset − 1) >>> 6 ≤ 0x1b`;
since the decoder's reuse shortcut requires low five bits ≥ 0x1c, an
encoder-produced M2 opcode can never trigger it. -/
theorem c9_m2_band_tag (cap offset length : Nat) (hcap : 4 ≤ cap)
    (hlen3 : 3 ≤ length) (hlen4 : length ≤ 4) (hoff1 : 1 ≤ offset) (hoff : offset ≤ 0x700) :
    emitMatch cap offset length =
      ([byteN (((length - 1) <<< 5) ||| (((offset - 1) >>> 6) &&& 0x1f)),
        byteN (((offset - 1) &&& 0x3f) <<< 2)], .ok) ∧
    byteN (((length - 1) <<< 5) ||| (((offset - 1) >>> 6) &&& 0x1f)) &&& 0x1f =
      (offset - 1) >>> 6 ∧
    (offset - 1) >>> 6 ≤ 0x1b ∧
    64 ≤ byteN (((length - 1) <<< 5) ||| (((offset - 1) >>> 6) &&& 0x1f)) := by
  have hhi : (offset - 1) >>> 6 ≤ 0x1b := by
    rw [Nat.shiftRight_eq_div_pow]
    omega
  have hbits := m2TagBits ((offset - 1) >>> 6) (by omega)
  have hemit : emitMatch cap offset length =
      ([byteN (((length - 1) <<< 5) ||| (((offset - 1) >>> 6) &&& 0x1f)),
        byteN (((offset - 1) &&& 0x3f) <<< 2)], .ok) := by
    unfold emitMatch
    rw [if_neg (by omega), if_pos ⟨hlen3, hlen4, hoff1, hoff⟩]
    simp [wrList, wr, show (0 : Nat) < cap by omega, show (1 : Nat) < cap by omega]
  refine ⟨hemit, ?_, hhi, ?_⟩
  · have hl : length - 1 = 2 ∨ length - 1 = 3 := by omega
    rcases hl with hl | hl <;> rw [hl]
    · exact hbits.1.1
    · exact hbits.2.1
  · have hl : length - 1 = 2 ∨ length - 1 = 3 := by omega
    rcases hl with hl | hl <;> rw [hl]
    · exact hbits.1.2
    · exact hbits.2.2


/-- C9 witness: concrete M2 emission at the extreme of the band
(offset 0x700, length 4): tag 123 = 0b01111011, low five bits 27 =
0x1b < 0x1c. -/
theorem c9_witness :
    emitMatch 8 0x700 4 = ([123, 252], EErr.ok) ∧
    (123 : Nat) &&& 0x1f = (0x700 - 1) >>> 6 ∧ (0x700 - 1) >>> 6 ≤ 0x1b := by
  have h := c9_m2_band_tag 8 0x700 4 (by norm_num) (by norm_num) (by norm_num)
    (by norm_num) (by norm_num)
  refine ⟨?_, by decide, by decide⟩
  rw [h.1]
  decide


/-! ## Decoder safety: the copy loops succeed under the source's guards -/

theorem copyLit_some (src : List Nat) : ∀ (n ip op : Nat) (dst : List Nat),
    ip + n ≤ src.length → op + n ≤ dst.length →
    ∃ d2, copyLit src n ip op dst = some d2 ∧ d2.length = dst.length := by
  intro n
  induction n with
  | zero => intro ip op dst _ _; exact ⟨dst, rfl, rfl⟩
  | succ n ih =>
    intro ip op dst h1 h2
    have hip : ip < src.length := by omega
    have hop : op < dst.length := by omega
    obtain ⟨d2, hd2, hlen⟩ := ih (ip + 1) (op + 1) (dst.set op (src.getD ip 0))
      (by omega) (by simp; omega)
    refine ⟨d2, ?_, by simp at hlen; omega⟩
    simp only [copyLit, List.getElem?_eq_getElem hip, if_pos hop]
    rw [← hd2]
    congr 1
    rw [List.getD_eq_getElem _ _ hip]

theorem copyMatch_some : ∀ (n mPos op : Nat) (dst : List Nat),
    mPos ≤ op → op + n ≤ dst.length →
    ∃ d2, copyMatch n mPos op dst = some d2 ∧ d2.length = dst.length := by
  intro n
  induction n with
  | zero => intro mPos op dst _ _; exact ⟨dst, rfl, rfl⟩
  | succ n ih =>
    intro mPos op dst h1 h2
    have hmp : mPos < dst.length := by omega
    have hop : op < dst.length := by omega
    obtain ⟨d2, hd2, hlen⟩ := ih (mPos + 1) (op + 1) (dst.set op (dst.getD mPos 0))
      (by omega) (by simp; omega)
    refine ⟨d2, ?_, by simp at hlen; omega⟩
    simp only [copyMatch, List.getElem?_eq_getElem hmp, if_pos hop]
    rw [← hd2]
    congr 1
    rw [List.getD_eq_getElem _ _ hmp]


/-- Tag weights for the decoder termination measure. -/
def dWeight : DTag → Nat
  | .start => 3
  | .literalRun => 2
  | .firstLiteralRun => 2
  | .mtch => 1
  | .matchDone => 3
  | .matchNext => 2
  | .eof => 0

/-- Decoder termination measure: strictly decreases at every `cont`. -/
def dMeasure (src : List Nat) (s : DState) : Nat :=
  3 * (src.length - s.ip) + dWeight s.tag

/-- Full case description of `finishMatch`: it fails only with the two
guarded overrun errors, and on success advances the output cursor by the
copy length, within bounds. -/
theorem finishMatch_spec (s : DState) (ip mOff mLen lastM : Nat) :
    (∀ n d e, finishMatch s ip mOff mLen lastM = .done n d e →
      n = s.op ∧ d = s.dst ∧ (e = .lookbehindOverrun ∨ e = .outputOverrun)) ∧
    (∀ s2, finishMatch s ip mOff mLen lastM = .cont s2 →
      s2.ip = ip ∧ s2.op = s.op + mLen ∧ s2.dst.length = s.dst.length ∧
      s2.tag = .matchDone ∧ s.op + mLen ≤ s.dst.length) := by
  unfold finishMatch
  by_cases h1 : mOff > s.op
  · rw [if_pos h1]
    constructor
    · intro n d e hd
      cases hd
      exact ⟨rfl, rfl, Or.inl rfl⟩
    · intro s2 hc
      cases hc
  rw [if_neg h1]
  by_cases h2 : s.op + mLen > s.dst.length
  · rw [if_pos h2]
    constructor
    · intro n d e hd
      cases hd
      exact ⟨rfl, rfl, Or.inr rfl⟩
    · intro s2 hc
      cases hc
  rw [if_neg h2]
  obtain ⟨d2, hc2, hl2⟩ := copyMatch_some mLen (s.op - mOff) s.op s.dst (by omega) (by omega)
  rw [hc2]
  constructor
  · intro n d e hd
    cases hd
  · intro s2 hc
    cases hc
    exact ⟨rfl, rfl, hl2, rfl, by omega⟩

/-- Safety-and-progress description of one decoder step. -/
def StepSafe (src : List Nat) (s : DState) : Prop :=
  (∀ n d e, dstep src s = .done n d e → n = s.op ∧ d = s.dst ∧ e ≠ .oob ∧ e ≠ .fuelOut) ∧
  (∀ s2, dstep src s = .cont s2 → s2.dst.length = s.dst.length ∧
    (s.op ≤ s.dst.length → s2.op ≤ s2.dst.length) ∧
    dMeasure src s2 < dMeasure src s)

theorem stepSafe_eof (src : List Nat) (s : DState) (h : s.tag = DTag.eof) :
    StepSafe src s := by
  obtain ⟨ip, op, dst, lastM, tag⟩ := s
  simp only at h
  subst h
  constructor
  · intro n d e hd
    simp only [dstep] at hd
    cases hd
    exact ⟨rfl, rfl, by simp, by simp⟩
  · intro s2 hc
    simp only [dstep] at hc
    cases hc

theorem stepSafe_matchNext (src : List Nat) (s : DState) (h : s.tag = DTag.matchNext) :
    StepSafe src s := by
  obtain ⟨ip, op, dst, lastM, tag⟩ := s
  simp only at h
  subst h
  constructor
  · intro n d e hd
    simp only [dstep] at hd
    cases hd
  · intro s2 hc
    simp only [dstep] at hc
    cases hc
    refine ⟨rfl, ?_, ?_⟩
    · exact fun h => h
    · simp [dMeasure, dWeight]


theorem stepSafe_matchDone (src : List Nat) (s : DState) (h : s.tag = DTag.matchDone) :
    StepSafe src s := by
  obtain ⟨ip, op, dst, lastM, tag⟩ := s
  simp only at h
  subst h
  constructor
  · intro n d e hd
    simp only [dstep] at hd
    by_cases h1 : ip = 0 ∨ ip > src.length
    · rw [if_pos h1] at hd
      cases hd
    rw [if_neg h1] at hd
    by_cases h2 : src.getD (ip - 1) 0 &&& 3 = 0
    · rw [if_pos h2] at hd
      cases hd
    rw [if_neg h2] at hd
    by_cases h3 : op + (src.getD (ip - 1) 0 &&& 3) > dst.length
    · rw [if_pos h3] at hd
      cases hd
      exact ⟨rfl, rfl, by simp, by simp⟩
    rw [if_neg h3] at hd
    by_cases h4 : ip + (src.getD (ip - 1) 0 &&& 3) > src.length
    · rw [if_pos h4] at hd
      cases hd
      exact ⟨rfl, rfl, by simp, by simp⟩
    rw [if_neg h4] at hd
    obtain ⟨d2, hc, hl⟩ :=
      copyLit_some src (src.getD (ip - 1) 0 &&& 3) ip op dst (by omega) (by omega)
    rw [hc] at hd
    cases hd
  · intro s2 hc2
    simp only [dstep] at hc2
    by_cases h1 : ip = 0 ∨ ip > src.length
    · rw [if_pos h1] at hc2
      cases hc2
      refine ⟨rfl, ?_, ?_⟩
      · exact fun h => h
      · simp [dMeasure, dWeight]
    rw [if_neg h1] at hc2
    by_cases h2 : src.getD (ip - 1) 0 &&& 3 = 0
    · rw [if_pos h2] at hc2
      cases hc2
      refine ⟨rfl, ?_, ?_⟩
      · exact fun h => h
      · simp [dMeasure, dWeight]
    rw [if_neg h2] at hc2
    by_cases h3 : op + (src.getD (ip - 1) 0 &&& 3) > dst.length
    · rw [if_pos h3] at hc2
      cases hc2
    rw [if_neg h3] at hc2
    by_cases h4 : ip + (src.getD (ip - 1) 0 &&& 3) > src.length
    · rw [if_pos h4] at hc2
      cases hc2
    rw [if_neg h4] at hc2
    obtain ⟨d2, hc, hl⟩ :=
      copyLit_some src (src.getD (ip - 1) 0 &&& 3) ip op dst (by omega) (by omega)
    simp only [hc] at hc2
    cases hc2
    refine ⟨hl, ?_, ?_⟩
    · intro hx
      dsimp only at hx ⊢
      omega
    · dsimp only [dMeasure, dWeight]
      omega

theorem stepSafe_start (src : List Nat) (s : DState) (h : s.tag = DTag.start) :
    StepSafe src s := by
  obtain ⟨ip, op, dst, lastM, tag⟩ := s
  simp only at h
  subst h
  constructor
  · intro n d e hd
    simp only [dstep] at hd
    by_cases hip : ip < src.length
    · rw [if_pos hip] at hd
      by_cases h17 : src.getD ip 0 > 17
      · rw [if_pos h17] at hd
        by_cases hout : op + (src.getD ip 0 - 17) > dst.length
        · rw [if_pos hout] at hd
          cases hd
          exact ⟨rfl, rfl, by simp, by simp⟩
        rw [if_neg hout] at hd
        by_cases hin : ip + 1 + (src.getD ip 0 - 17) > src.length
        · rw [if_pos hin] at hd
          cases hd
          exact ⟨rfl, rfl, by simp, by simp⟩
        rw [if_neg hin] at hd
        obtain ⟨d2, hc, hl⟩ :=
          copyLit_some src (src.getD ip 0 - 17) (ip + 1) op dst (by omega) (by omega)
        simp only [hc] at hd
        split at hd <;> cases hd
      · rw [if_neg h17] at hd
        cases hd
    · rw [if_neg hip] at hd
      cases hd
      exact ⟨rfl, rfl, by simp, by simp⟩
  · intro s2 hc2
    simp only [dstep] at hc2
    by_cases hip : ip < src.length
    · rw [if_pos hip] at hc2
      by_cases h17 : src.getD ip 0 > 17
      · rw [if_pos h17] at hc2
        by_cases hout : op + (src.getD ip 0 - 17) > dst.length
        · rw [if_pos hout] at hc2
          cases hc2
        rw [if_neg hout] at hc2
        by_cases hin : ip + 1 + (src.getD ip 0 - 17) > src.length
        · rw [if_pos hin] at hc2
          cases hc2
        rw [if_neg hin] at hc2
        obtain ⟨d2, hc, hl⟩ :=
          copyLit_some src (src.getD ip 0 - 17) (ip + 1) op dst (by omega) (by omega)
        simp only [hc] at hc2
        split at hc2 <;>
        · cases hc2
          refine ⟨hl, ?_, ?_⟩
          · intro hx
            dsimp only at hx ⊢
            omega
          · dsimp only [dMeasure, dWeight]
            omega
      · rw [if_neg h17] at hc2
        cases hc2
        refine ⟨rfl, ?_, ?_⟩
        · exact fun h => h
        · simp [dMeasure, dWeight]
    · rw [if_neg hip] at hc2
      cases hc2


theorem stepSafe_literalRun (src : List Nat) (s : DState) (h : s.tag = DTag.literalRun) :
    StepSafe src s := by
  obtain ⟨ip, op, dst, lastM, tag⟩ := s
  simp only at h
  subst h
  constructor
  · intro n d e hd
    simp only [dstep] at hd
    by_cases hip : ip < src.length
    · rw [if_pos hip] at hd
      by_cases h16 : src.getD ip 0 ≥ 16
      · rw [if_pos h16] at hd
        cases hd
      rw [if_neg h16] at hd
      by_cases h0 : src.getD ip 0 = 0
      · rw [if_pos h0] at hd
        by_cases hz : ip + 1 + countZeros (src.drop (ip + 1)) < src.length
        · rw [if_pos hz] at hd
          by_cases hout : op + (255 * countZeros (src.drop (ip + 1)) + 15 +
              src.getD (ip + 1 + countZeros (src.drop (ip + 1))) 0 + 3) > dst.length
          · rw [if_pos hout] at hd
            cases hd
            exact ⟨rfl, rfl, by simp, by simp⟩
          rw [if_neg hout] at hd
          by_cases hin : ip + 2 + countZeros (src.drop (ip + 1)) +
              (255 * countZeros (src.drop (ip + 1)) + 15 +
                src.getD (ip + 1 + countZeros (src.drop (ip + 1))) 0 + 3) > src.length
          · rw [if_pos hin] at hd
            cases hd
            exact ⟨rfl, rfl, by simp, by simp⟩
          rw [if_neg hin] at hd
          obtain ⟨d2, hc, hl⟩ := copyLit_some src
            (255 * countZeros (src.drop (ip + 1)) + 15 +
              src.getD (ip + 1 + countZeros (src.drop (ip + 1))) 0 + 3)
            (ip + 2 + countZeros (src.drop (ip + 1))) op dst (by omega) (by omega)
          simp only [hc] at hd
          cases hd
        · rw [if_neg hz] at hd
          cases hd
          exact ⟨rfl, rfl, by simp, by simp⟩
      rw [if_neg h0] at hd
      by_cases hout : op + (src.getD ip 0 + 3) > dst.length
      · rw [if_pos hout] at hd
        cases hd
        exact ⟨rfl, rfl, by simp, by simp⟩
      rw [if_neg hout] at hd
      by_cases hin : ip + 1 + (src.getD ip 0 + 3) > src.length
      · rw [if_pos hin] at hd
        cases hd
        exact ⟨rfl, rfl, by simp, by simp⟩
      rw [if_neg hin] at hd
      obtain ⟨d2, hc, hl⟩ := copyLit_some src (src.getD ip 0 + 3) (ip + 1) op dst
        (by omega) (by omega)
      simp only [hc] at hd
      cases hd
    · rw [if_neg hip] at hd
      cases hd
      exact ⟨rfl, rfl, by simp, by simp⟩
  · intro s2 hc2
    simp only [dstep] at hc2
    by_cases hip : ip < src.length
    · rw [if_pos hip] at hc2
      by_cases h16 : src.getD ip 0 ≥ 16
      · rw [if_pos h16] at hc2
        cases hc2
        refine ⟨rfl, ?_, ?_⟩
        · exact fun h => h
        · simp [dMeasure, dWeight]
      rw [if_neg h16] at hc2
      by_cases h0 : src.getD ip 0 = 0
      · rw [if_pos h0] at hc2
        by_cases hz : ip + 1 + countZeros (src.drop (ip + 1)) < src.length
        · rw [if_pos hz] at hc2
          by_cases hout : op + (255 * countZeros (src.drop (ip + 1)) + 15 +
              src.getD (ip + 1 + countZeros (src.drop (ip + 1))) 0 + 3) > dst.length
          · rw [if_pos hout] at hc2
            cases hc2
          rw [if_neg hout] at hc2
          by_cases hin : ip + 2 + countZeros (src.drop (ip + 1)) +
              (255 * countZeros (src.drop (ip + 1)) + 15 +
                src.getD (ip + 1 + countZeros (src.drop (ip + 1))) 0 + 3) > src.length
          · rw [if_pos hin] at hc2
            cases hc2
          rw [if_neg hin] at hc2
          obtain ⟨d2, hc, hl⟩ := copyLit_some src
            (255 * countZeros (src.drop (ip + 1)) + 15 +
              src.getD (ip + 1 + countZeros (src.drop (ip + 1))) 0 + 3)
            (ip + 2 + countZeros (src.drop (ip + 1))) op dst (by omega) (by omega)
          simp only [hc] at hc2
          cases hc2
          refine ⟨hl, ?_, ?_⟩
          · intro hx
            dsimp only at hx ⊢
            omega
          · dsimp only [dMeasure, dWeight]
            omega
        · rw [if_neg hz] at hc2
          cases hc2
      rw [if_neg h0] at hc2
      by_cases hout : op + (src.getD ip 0 + 3) > dst.length
      · rw [if_pos hout] at hc2
        cases hc2
      rw [if_neg hout] at hc2
      by_cases hin : ip + 1 + (src.getD ip 0 + 3) > src.length
      · rw [if_pos hin] at hc2
        cases hc2
      rw [if_neg hin] at hc2
      obtain ⟨d2, hc, hl⟩ := copyLit_some src (src.getD ip 0 + 3) (ip + 1) op dst
        (by omega) (by omega)
      simp only [hc] at hc2
      cases hc2
      refine ⟨hl, ?_, ?_⟩
      · intro hx
        dsimp only at hx ⊢
        omega
      · dsimp only [dMeasure, dWeight]
        omega
    · rw [if_neg hip] at hc2
      cases hc2

theorem stepSafe_firstLiteralRun (src : List Nat) (s : DState)
    (h : s.tag = DTag.firstLiteralRun) : StepSafe src s := by
  obtain ⟨ip, op, dst, lastM, tag⟩ := s
  simp only at h
  subst h
  constructor
  · intro n d e hd
    simp only [dstep] at hd
    by_cases hip : ip < src.length
    · rw [if_pos hip] at hd
      by_cases h16 : src.getD ip 0 ≥ 16
      · rw [if_pos h16] at hd
        cases hd
      rw [if_neg h16] at hd
      by_cases h2 : ip + 1 < src.length
      · rw [if_pos h2] at hd
        by_cases hlb : (1 + m2MaxOffset) + (src.getD ip 0 <<< 6) +
            (src.getD (ip + 1) 0 >>> 2) > op
        · rw [if_pos hlb] at hd
          cases hd
          exact ⟨rfl, rfl, by simp, by simp⟩
        rw [if_neg hlb] at hd
        by_cases hout : op + 3 > dst.length
        · rw [if_pos hout] at hd
          cases hd
          exact ⟨rfl, rfl, by simp, by simp⟩
        rw [if_neg hout] at hd
        obtain ⟨d2, hc, hl⟩ := copyMatch_some 3
          (op - ((1 + m2MaxOffset) + (src.getD ip 0 <<< 6) + (src.getD (ip + 1) 0 >>> 2)))
          op dst (by omega) (by omega)
        simp only [hc] at hd
        cases hd
      · rw [if_neg h2] at hd
        cases hd
        exact ⟨rfl, rfl, by simp, by simp⟩
    · rw [if_neg hip] at hd
      cases hd
      exact ⟨rfl, rfl, by simp, by simp⟩
  · intro s2 hc2
    simp only [dstep] at hc2
    by_cases hip : ip < src.length
    · rw [if_pos hip] at hc2
      by_cases h16 : src.getD ip 0 ≥ 16
      · rw [if_pos h16] at hc2
        cases hc2
        refine ⟨rfl, ?_, ?_⟩
        · exact fun h => h
        · simp [dMeasure, dWeight]
      rw [if_neg h16] at hc2
      by_cases h2 : ip + 1 < src.length
      · rw [if_pos h2] at hc2
        by_cases hlb : (1 + m2MaxOffset) + (src.getD ip 0 <<< 6) +
            (src.getD (ip + 1) 0 >>> 2) > op
        · rw [if_pos hlb] at hc2
          cases hc2
        rw [if_neg hlb] at hc2
        by_cases hout : op + 3 > dst.length
        · rw [if_pos hout] at hc2
          cases hc2
        rw [if_neg hout] at hc2
        obtain ⟨d2, hc, hl⟩ := copyMatch_some 3
          (op - ((1 + m2MaxOffset) + (src.getD ip 0 <<< 6) + (src.getD (ip + 1) 0 >>> 2)))
          op dst (by omega) (by omega)
        simp only [hc] at hc2
        cases hc2
        refine ⟨hl, ?_, ?_⟩
        · intro hx
          dsimp only at hx ⊢
          omega
        · dsimp only [dMeasure, dWeight]
          omega
      · rw [if_neg h2] at hc2
        cases hc2
    · rw [if_neg hip] at hc2
      cases hc2


theorem finish_done_safe {s : DState} {ip2 mOff mLen lastM2 : Nat} {n : Nat}
    {d : List Nat} {e : DErr}
    (hd : finishMatch s ip2 mOff mLen lastM2 = .done n d e) :
    n = s.op ∧ d = s.dst ∧ e ≠ .oob ∧ e ≠ .fuelOut := by
  obtain ⟨h1, h2, h3⟩ := (finishMatch_spec s ip2 mOff mLen lastM2).1 n d e hd
  rcases h3 with h3 | h3 <;> subst h3 <;> exact ⟨h1, h2, by simp, by simp⟩

theorem finish_cont_safe {src : List Nat} {s : DState} {ip2 mOff mLen lastM2 : Nat}
    {s2 : DState} (hc : finishMatch s ip2 mOff mLen lastM2 = .cont s2)
    (hips : s.ip < src.length) (hip2 : s.ip + 1 ≤ ip2) (htag : s.tag = DTag.mtch) :
    s2.dst.length = s.dst.length ∧ (s.op ≤ s.dst.length → s2.op ≤ s2.dst.length) ∧
    dMeasure src s2 < dMeasure src s := by
  obtain ⟨hipe, hope, hlen, htage, hb⟩ := (finishMatch_spec s ip2 mOff mLen lastM2).2 s2 hc
  refine ⟨hlen, ?_, ?_⟩
  · intro
    omega
  · simp only [dMeasure, hipe, htage, htag, dWeight]
    omega

theorem stepSafe_mtch (src : List Nat) (s : DState) (h : s.tag = DTag.mtch) :
    StepSafe src s := by
  obtain ⟨ip, op, dst, lastM, tag⟩ := s
  simp only at h
  subst h
  constructor
  · intro n d e hd
    simp only [dstep] at hd
    by_cases hip : ip < src.length
    swap
    · rw [if_neg hip] at hd
      cases hd
      exact ⟨rfl, rfl, by simp, by simp⟩
    rw [if_pos hip] at hd
    by_cases h64 : src.getD ip 0 ≥ 64
    · rw [if_pos h64] at hd
      by_cases hr : src.getD ip 0 &&& 0x1f ≥ 0x1c
      · rw [if_pos hr] at hd
        by_cases h0 : lastM = 0
        · rw [if_pos h0] at hd
          cases hd
          exact ⟨rfl, rfl, by simp, by simp⟩
        · rw [if_neg h0] at hd
          exact finish_done_safe hd
      · rw [if_neg hr] at hd
        by_cases h2 : ip + 1 < src.length
        · rw [if_pos h2] at hd
          exact finish_done_safe hd
        · rw [if_neg h2] at hd
          cases hd
          exact ⟨rfl, rfl, by simp, by simp⟩
    rw [if_neg h64] at hd
    by_cases h32 : src.getD ip 0 ≥ 32
    · rw [if_pos h32] at hd
      by_cases hm0 : src.getD ip 0 &&& 31 = 0
      · rw [if_pos hm0] at hd
        by_cases hz : ip + 1 + countZeros (src.drop (ip + 1)) < src.length
        · rw [if_pos hz] at hd
          by_cases h4z : ip + 4 + countZeros (src.drop (ip + 1)) > src.length
          · rw [if_pos h4z] at hd
            cases hd
            exact ⟨rfl, rfl, by simp, by simp⟩
          · rw [if_neg h4z] at hd
            exact finish_done_safe hd
        · rw [if_neg hz] at hd
          cases hd
          exact ⟨rfl, rfl, by simp, by simp⟩
      · rw [if_neg hm0] at hd
        by_cases h3 : ip + 3 > src.length
        · rw [if_pos h3] at hd
          cases hd
          exact ⟨rfl, rfl, by simp, by simp⟩
        · rw [if_neg h3] at hd
          exact finish_done_safe hd
    rw [if_neg h32] at hd
    by_cases h16 : src.getD ip 0 ≥ 16
    · rw [if_pos h16] at hd
      by_cases hm0 : src.getD ip 0 &&& 7 = 0
      · rw [if_pos hm0] at hd
        by_cases hz : ip + 1 + countZeros (src.drop (ip + 1)) < src.length
        · rw [if_pos hz] at hd
          by_cases h4z : ip + 4 + countZeros (src.drop (ip + 1)) > src.length
          · rw [if_pos h4z] at hd
            cases hd
            exact ⟨rfl, rfl, by simp, by simp⟩
          · rw [if_neg h4z] at hd
            split at hd
            · cases hd
            · exact finish_done_safe hd
        · rw [if_neg hz] at hd
          cases hd
          exact ⟨rfl, rfl, by simp, by simp⟩
      · rw [if_neg hm0] at hd
        by_cases h3 : ip + 3 > src.length
        · rw [if_pos h3] at hd
          cases hd
          exact ⟨rfl, rfl, by simp, by simp⟩
        · rw [if_neg h3] at hd
          split at hd
          · cases hd
          · exact finish_done_safe hd
    · rw [if_neg h16] at hd
      by_cases h2 : ip + 1 < src.length
      · rw [if_pos h2] at hd
        exact finish_done_safe hd
      · rw [if_neg h2] at hd
        cases hd
        exact ⟨rfl, rfl, by simp, by simp⟩
  · intro s2 hc2
    simp only [dstep] at hc2
    by_cases hip : ip < src.length
    swap
    · rw [if_neg hip] at hc2
      cases hc2
    rw [if_pos hip] at hc2
    by_cases h64 : src.getD ip 0 ≥ 64
    · rw [if_pos h64] at hc2
      by_cases hr : src.getD ip 0 &&& 0x1f ≥ 0x1c
      · rw [if_pos hr] at hc2
        by_cases h0 : lastM = 0
        · rw [if_pos h0] at hc2
          cases hc2
        · rw [if_neg h0] at hc2
          exact finish_cont_safe hc2 hip (by dsimp only; omega) rfl
      · rw [if_neg hr] at hc2
        by_cases h2 : ip + 1 < src.length
        · rw [if_pos h2] at hc2
          exact finish_cont_safe hc2 hip (by dsimp only; omega) rfl
        · rw [if_neg h2] at hc2
          cases hc2
    rw [if_neg h64] at hc2
    by_cases h32 : src.getD ip 0 ≥ 32
    · rw [if_pos h32] at hc2
      by_cases hm0 : src.getD ip 0 &&& 31 = 0
      · rw [if_pos hm0] at hc2
        by_cases hz : ip + 1 + countZeros (src.drop (ip + 1)) < src.length
        · rw [if_pos hz] at hc2
          by_cases h4z : ip + 4 + countZeros (src.drop (ip + 1)) > src.length
          · rw [if_pos h4z] at hc2
            cases hc2
          · rw [if_neg h4z] at hc2
            exact finish_cont_safe hc2 hip (by dsimp only; omega) rfl
        · rw [if_neg hz] at hc2
          cases hc2
      · rw [if_neg hm0] at hc2
        by_cases h3 : ip + 3 > src.length
        · rw [if_pos h3] at hc2
          cases hc2
        · rw [if_neg h3] at hc2
          exact finish_cont_safe hc2 hip (by dsimp only; omega) rfl
    rw [if_neg h32] at hc2
    by_cases h16 : src.getD ip 0 ≥ 16
    · rw [if_pos h16] at hc2
      by_cases hm0 : src.getD ip 0 &&& 7 = 0
      · rw [if_pos hm0] at hc2
        by_cases hz : ip + 1 + countZeros (src.drop (ip + 1)) < src.length
        · rw [if_pos hz] at hc2
          by_cases h4z : ip + 4 + countZeros (src.drop (ip + 1)) > src.length
          · rw [if_pos h4z] at hc2
            cases hc2
          · rw [if_neg h4z] at hc2
            split at hc2
            · cases hc2
              refine ⟨rfl, ?_, ?_⟩
              · exact fun h => h
              · dsimp only [dMeasure, dWeight]
                omega
            · exact finish_cont_safe hc2 hip (by dsimp only; omega) rfl
        · rw [if_neg hz] at hc2
          cases hc2
      · rw [if_neg hm0] at hc2
        by_cases h3 : ip + 3 > src.length
        · rw [if_pos h3] at hc2
          cases hc2
        · rw [if_neg h3] at hc2
          split at hc2
          · cases hc2
            refine ⟨rfl, ?_, ?_⟩
            · exact fun h => h
            · dsimp only [dMeasure, dWeight]
              omega
          · exact finish_cont_safe hc2 hip (by dsimp only; omega) rfl
    · rw [if_neg h16] at hc2
      by_cases h2 : ip + 1 < src.length
      · rw [if_pos h2] at hc2
        exact finish_cont_safe hc2 hip (by dsimp only; omega) rfl
      · rw [if_neg h2] at hc2
        cases hc2

theorem dstep_safe (src : List Nat) (s : DState) : StepSafe src s := by
  cases htag : s.tag
  · exact stepSafe_start src s htag
  · exact stepSafe_literalRun src s htag
  · exact stepSafe_firstLiteralRun src s htag
  · exact stepSafe_mtch src s htag
  · exact stepSafe_matchDone src s htag
  · exact stepSafe_matchNext src s htag
  · exact stepSafe_eof src s htag


theorem dloop_safe (src : List Nat) : ∀ (fuel : Nat) (s : DState),
    dMeasure src s < fuel → s.op ≤ s.dst.length →
    ((dloop src fuel s).2.2 ≠ .oob ∧ (dloop src fuel s).2.2 ≠ .fuelOut) ∧
    (dloop src fuel s).1 ≤ s.dst.length ∧ (dloop src fuel s).2.1.length = s.dst.length := by
  intro fuel
  induction fuel with
  | zero =>
    intro s hm _
    omega
  | succ fuel ih =>
    intro s hm hop
    simp only [dloop]
    cases hstep : dstep src s with
    | done n d e =>
      obtain ⟨hn, hd, hoob, hfo⟩ := (dstep_safe src s).1 n d e hstep
      subst hn hd
      exact ⟨⟨hoob, hfo⟩, hop, rfl⟩
    | cont s2 =>
      obtain ⟨hlen, hople, hmeas⟩ := (dstep_safe src s).2 s2 hstep
      obtain ⟨hh1, hh2, hh3⟩ := ih s2 (by omega) (hople hop)
      rw [hlen] at hh2 hh3
      exact ⟨hh1, hh2, hh3⟩

/-- C2: on every input and every output capacity, the decoder terminates
within its fuel allowance, performs no out-of-range access (no `oob`),
returns one of the four documented result kinds, never reports more
output than the capacity, and leaves the buffer length unchanged. -/
theorem c2_decoder_safety (src dst : List Nat) :
    ((Decompress src dst).2.2 = .ok ∨ (Decompress src dst).2.2 = .inputOverrun ∨
      (Decompress src dst).2.2 = .outputOverrun ∨
      (Decompress src dst).2.2 = .lookbehindOverrun) ∧
    (Decompress src dst).1 ≤ dst.length ∧
    (Decompress src dst).2.1.length = dst.length := by
  unfold Decompress
  by_cases h0 : src.length = 0
  · rw [if_pos h0]
    exact ⟨Or.inl rfl, by simp, rfl⟩
  · rw [if_neg h0]
    have h := dloop_safe src (3 * src.length + 4) ⟨0, 0, dst, 0, .start⟩
      (by dsimp only [dMeasure, dWeight]; omega) (by dsimp only; omega)
    obtain ⟨⟨hoob, hfo⟩, hle, hlen⟩ := h
    refine ⟨?_, hle, hlen⟩
    cases he : (dloop src (3 * src.length + 4) ⟨0, 0, dst, 0, .start⟩).2.2 <;>
      simp_all


/-! ## C10: success happens only through the M4 EOF marker -/

theorem dstep_done_ok {src : List Nat} {s : DState} {n : Nat} {d : List Nat}
    (hd : dstep src s = .done n d .ok) : s.tag = DTag.eof := by
  obtain ⟨ip, op, dst, lastM, tag⟩ := s
  cases tag <;> simp only [dstep] at hd <;> try rfl
  all_goals
    repeat
      first
      | rfl
      | cases hd
      | split at hd
      | (obtain ⟨-, -, h3⟩ := (finishMatch_spec _ _ _ _ _).1 _ _ _ hd
         rcases h3 with h3 | h3 <;> cases h3)

theorem fm_cont_ne_eof {s : DState} {ip2 mOff mLen lastM2 : Nat} {s2 : DState}
    (hc : finishMatch s ip2 mOff mLen lastM2 = .cont s2) : s2.tag ≠ DTag.eof := by
  have ht := ((finishMatch_spec s ip2 mOff mLen lastM2).2 s2 hc).2.2.2.1
  intro he
  rw [ht] at he
  cases he

/-- Entering the `eof` state happens only from the `Match` state on an M4
tag (16 ≤ t < 32) whose raw decoded offset — high bit from the tag, the
two offset bytes just consumed — is zero, and it moves no output. -/
theorem dstep_cont_eof {src : List Nat} {s s2 : DState}
    (hc : dstep src s = .cont s2) (he : s2.tag = DTag.eof) :
    s.tag = DTag.mtch ∧ s.ip < src.length ∧ 16 ≤ src.getD s.ip 0 ∧
    src.getD s.ip 0 < 32 ∧
    ((src.getD s.ip 0 &&& 8) <<< 11) + (src.getD (s2.ip - 2) 0 <<< 6) +
      (src.getD (s2.ip - 1) 0 >>> 2) = 0 ∧ s2.op = s.op ∧ s2.dst = s.dst := by
  obtain ⟨ip, op, dst, lastM, tag⟩ := s
  cases tag <;> simp only [dstep] at hc
  case start =>
    repeat
      first
      | (cases hc <;> simp at he)
      | split at hc
  case literalRun =>
    repeat
      first
      | (cases hc <;> simp at he)
      | split at hc
  case firstLiteralRun =>
    repeat
      first
      | (cases hc <;> simp at he)
      | split at hc
  case matchDone =>
    repeat
      first
      | (cases hc <;> simp at he)
      | split at hc
  case matchNext =>
    cases hc
    simp at he
  case eof => cases hc
  case mtch =>
    by_cases hip : ip < src.length
    swap
    · rw [if_neg hip] at hc
      cases hc
    rw [if_pos hip] at hc
    by_cases h64 : src.getD ip 0 ≥ 64
    · rw [if_pos h64] at hc
      by_cases hr : src.getD ip 0 &&& 0x1f ≥ 0x1c
      · rw [if_pos hr] at hc
        by_cases h0 : lastM = 0
        · rw [if_pos h0] at hc
          cases hc
        · rw [if_neg h0] at hc
          exact absurd he (fm_cont_ne_eof hc)
      · rw [if_neg hr] at hc
        by_cases h2 : ip + 1 < src.length
        · rw [if_pos h2] at hc
          exact absurd he (fm_cont_ne_eof hc)
        · rw [if_neg h2] at hc
          cases hc
    rw [if_neg h64] at hc
    by_cases h32 : src.getD ip 0 ≥ 32
    · rw [if_pos h32] at hc
      by_cases hm0 : src.getD ip 0 &&& 31 = 0
      · rw [if_pos hm0] at hc
        by_cases hz : ip + 1 + countZeros (src.drop (ip + 1)) < src.length
        · rw [if_pos hz] at hc
          by_cases h4z : ip + 4 + countZeros (src.drop (ip + 1)) > src.length
          · rw [if_pos h4z] at hc
            cases hc
          · rw [if_neg h4z] at hc
            exact absurd he (fm_cont_ne_eof hc)
        · rw [if_neg hz] at hc
          cases hc
      · rw [if_neg hm0] at hc
        by_cases h3 : ip + 3 > src.length
        · rw [if_pos h3] at hc
          cases hc
        · rw [if_neg h3] at hc
          exact absurd he (fm_cont_ne_eof hc)
    rw [if_neg h32] at hc
    by_cases h16 : src.getD ip 0 ≥ 16
    · rw [if_pos h16] at hc
      by_cases hm0 : src.getD ip 0 &&& 7 = 0
      · rw [if_pos hm0] at hc
        by_cases hz : ip + 1 + countZeros (src.drop (ip + 1)) < src.length
        · rw [if_pos hz] at hc
          by_cases h4z : ip + 4 + countZeros (src.drop (ip + 1)) > src.length
          · rw [if_pos h4z] at hc
            cases hc
          · rw [if_neg h4z] at hc
            split at hc
            · cases hc
              rename_i hraw
              have e1 : ip + 4 + countZeros (src.drop (ip + 1)) - 2 =
                  ip + 2 + countZeros (src.drop (ip + 1)) := by omega
              have e2 : ip + 4 + countZeros (src.drop (ip + 1)) - 1 =
                  ip + 3 + countZeros (src.drop (ip + 1)) := by omega
              refine ⟨rfl, hip, by dsimp only; omega, by dsimp only; omega, ?_, rfl, rfl⟩
              dsimp only
              rw [e1, e2]
              exact hraw
            · exact absurd he (fm_cont_ne_eof hc)
        · rw [if_neg hz] at hc
          cases hc
      · rw [if_neg hm0] at hc
        by_cases h3 : ip + 3 > src.length
        · rw [if_pos h3] at hc
          cases hc
        · rw [if_neg h3] at hc
          split at hc
          · cases hc
            rename_i hraw
            have e1 : ip + 3 - 2 = ip + 1 := by omega
            have e2 : ip + 3 - 1 = ip + 2 := by omega
            refine ⟨rfl, hip, by dsimp only; omega, by dsimp only; omega, ?_, rfl, rfl⟩
            dsimp only
            rw [e1, e2]
            exact hraw
          · exact absurd he (fm_cont_ne_eof hc)
    · rw [if_neg h16] at hc
      by_cases h2 : ip + 1 < src.length
      · rw [if_pos h2] at hc
        exact absurd he (fm_cont_ne_eof hc)
      · rw [if_neg h2] at hc
        cases hc




/-- With the cursor at the end of the input, every state other than `eof`
fails with `InputOverrun` or `OutputOverrun` (never success, never a
lookbehind error), or moves to another non-`eof` state still at the end
of the input. -/
theorem dstep_at_end {src : List Nat} {s : DState} (hend : s.ip = src.length)
    (hne : s.tag ≠ DTag.eof) :
    (∀ n d e, dstep src s = .done n d e → e = .inputOverrun ∨ e = .outputOverrun) ∧
    (∀ s2, dstep src s = .cont s2 → s2.ip = src.length ∧ s2.tag ≠ DTag.eof) := by
  obtain ⟨ip, op, dst, lastM, tag⟩ := s
  simp only at hend hne
  subst hend
  cases tag
  case eof => exact absurd rfl hne
  case matchNext =>
    constructor
    · intro n d e hd
      simp only [dstep] at hd
      cases hd
    · intro s2 hc
      simp only [dstep] at hc
      cases hc
      exact ⟨rfl, by simp⟩
  case matchDone =>
    constructor
    · intro n d e hd
      simp only [dstep] at hd
      by_cases h1 : src.length = 0 ∨ src.length > src.length
      · rw [if_pos h1] at hd
        cases hd
      rw [if_neg h1] at hd
      by_cases h2 : src.getD (src.length - 1) 0 &&& 3 = 0
      · rw [if_pos h2] at hd
        cases hd
      rw [if_neg h2] at hd
      by_cases h3 : op + (src.getD (src.length - 1) 0 &&& 3) > dst.length
      · rw [if_pos h3] at hd
        cases hd
        exact Or.inr rfl
      rw [if_neg h3] at hd
      rw [if_pos (by omega :
        src.length + (src.getD (src.length - 1) 0 &&& 3) > src.length)] at hd
      cases hd
      exact Or.inl rfl
    · intro s2 hc
      simp only [dstep] at hc
      by_cases h1 : src.length = 0 ∨ src.length > src.length
      · rw [if_pos h1] at hc
        cases hc
        exact ⟨rfl, by simp⟩
      rw [if_neg h1] at hc
      by_cases h2 : src.getD (src.length - 1) 0 &&& 3 = 0
      · rw [if_pos h2] at hc
        cases hc
        exact ⟨rfl, by simp⟩
      rw [if_neg h2] at hc
      by_cases h3 : op + (src.getD (src.length - 1) 0 &&& 3) > dst.length
      · rw [if_pos h3] at hc
        cases hc
      rw [if_neg h3] at hc
      rw [if_pos (by omega :
        src.length + (src.getD (src.length - 1) 0 &&& 3) > src.length)] at hc
      cases hc
  case start =>
    constructor
    · intro n d e hd
      simp only [dstep, if_neg (by omega : ¬ src.length < src.length)] at hd
      cases hd
      exact Or.inl rfl
    · intro s2 hc
      simp only [dstep, if_neg (by omega : ¬ src.length < src.length)] at hc
      cases hc
  case literalRun =>
    constructor
    · intro n d e hd
      simp only [dstep, if_neg (by omega : ¬ src.length < src.length)] at hd
      cases hd
      exact Or.inl rfl
    · intro s2 hc
      simp only [dstep, if_neg (by omega : ¬ src.length < src.length)] at hc
      cases hc
  case firstLiteralRun =>
    constructor
    · intro n d e hd
      simp only [dstep, if_neg (by omega : ¬ src.length < src.length)] at hd
      cases hd
      exact Or.inl rfl
    · intro s2 hc
      simp only [dstep, if_neg (by omega : ¬ src.length < src.length)] at hc
      cases hc
  case mtch =>
    constructor
    · intro n d e hd
      simp only [dstep, if_neg (by omega : ¬ src.length < src.length)] at hd
      cases hd
      exact Or.inl rfl
    · intro s2 hc
      simp only [dstep, if_neg (by omega : ¬ src.length < src.length)] at hc
      cases hc

theorem dloop_end_not_ok (src : List Nat) : ∀ (fuel : Nat) (s : DState),
    s.ip = src.length → s.tag ≠ DTag.eof →
    (dloop src fuel s).2.2 ≠ .ok ∧ (dloop src fuel s).2.2 ≠ .lookbehindOverrun := by
  intro fuel
  induction fuel with
  | zero =>
    intro s _ _
    exact ⟨by simp [dloop], by simp [dloop]⟩
  | succ fuel ih =>
    intro s hend hne
    simp only [dloop]
    cases hstep : dstep src s with
    | done n d e =>
      rcases (dstep_at_end hend hne).1 n d e hstep with h | h <;> subst h <;>
        exact ⟨by simp, by simp⟩
    | cont s2 =>
      obtain ⟨h1, h2⟩ := (dstep_at_end hend hne).2 s2 hstep
      exact ih s2 h1 h2

theorem dloop_ok_eof_entry (src : List Nat) : ∀ (fuel : Nat) (s : DState) (n : Nat)
    (d : List Nat), dloop src fuel s = (n, d, .ok) → s.tag ≠ DTag.eof →
    ∃ s1 s2, dstep src s1 = .cont s2 ∧ s2.tag = DTag.eof ∧ s1.tag = DTag.mtch ∧
      s1.ip < src.length ∧ 16 ≤ src.getD s1.ip 0 ∧ src.getD s1.ip 0 < 32 ∧
      ((src.getD s1.ip 0 &&& 8) <<< 11) + (src.getD (s2.ip - 2) 0 <<< 6) +
        (src.getD (s2.ip - 1) 0 >>> 2) = 0 := by
  intro fuel
  induction fuel with
  | zero =>
    intro s n d h hne
    simp [dloop] at h
  | succ fuel ih =>
    intro s n d h hne
    simp only [dloop] at h
    cases hstep : dstep src s with
    | done n2 d2 e =>
      rw [hstep] at h
      have he : e = .ok := by
        have := congrArg (fun x => x.2.2) h
        simpa using this
      subst he
      exact absurd (dstep_done_ok hstep) hne
    | cont s2 =>
      rw [hstep] at h
      by_cases he2 : s2.tag = DTag.eof
      · obtain ⟨ht1, hip, h16, h32, hraw, -, -⟩ := dstep_cont_eof hstep he2
        exact ⟨s, s2, hstep, he2, ht1, hip, h16, h32, hraw⟩
      · exact ih s2 n d h he2

/-- C10 amended: for a non-empty input, the decoder returns success only
after consuming an M4 opcode with raw decoded offset zero (the EOF
marker) and transitioning to the EOF state; a run that reaches the end of
the input in any other state never returns success — it fails, with
`InputOverrun` or (as the counterexample shows) `OutputOverrun`, never
with a lookbehind error. -/
theorem c10_success_via_eof_marker (src dst : List Nat) (hne : src.length ≠ 0) :
    ((Decompress src dst).2.2 = .ok →
      ∃ s1 s2, dstep src s1 = .cont s2 ∧ s2.tag = DTag.eof ∧ s1.tag = DTag.mtch ∧
        s1.ip < src.length ∧ 16 ≤ src.getD s1.ip 0 ∧ src.getD s1.ip 0 < 32 ∧
        ((src.getD s1.ip 0 &&& 8) <<< 11) + (src.getD (s2.ip - 2) 0 <<< 6) +
          (src.getD (s2.ip - 1) 0 >>> 2) = 0) ∧
    (∀ (fuel : Nat) (s : DState), s.ip = src.length → s.tag ≠ DTag.eof →
      (dloop src fuel s).2.2 ≠ .ok ∧ (dloop src fuel s).2.2 ≠ .lookbehindOverrun) := by
  constructor
  · intro hok
    unfold Decompress at hok
    rw [if_neg hne] at hok
    have heq : dloop src (3 * src.length + 4) ⟨0, 0, dst, 0, .start⟩ =
        ((dloop src (3 * src.length + 4) ⟨0, 0, dst, 0, .start⟩).1,
          (dloop src (3 * src.length + 4) ⟨0, 0, dst, 0, .start⟩).2.1, .ok) := by
      rw [← hok]
    exact dloop_ok_eof_entry src (3 * src.length + 4) ⟨0, 0, dst, 0, .start⟩ _ _ heq
      (by simp)
  · intro fuel s h1 h2
    exact dloop_end_not_ok src fuel s h1 h2


/-- C10 counterexample: for the stream below (a first literal run, then
an M2 match whose offset byte has trailing-literal bits 01) with an
output buffer of exactly 8 bytes, the decoder reaches the end of the
input in `MatchDone` and returns `OutputOverrun` — an error, but not the
`InputOverrun` the claim promises. -/
theorem c10_counterexample :
    (Decompress [0x16, 65, 66, 67, 68, 69, 0x40, 0x01] (List.replicate 8 0)).2.2 =
      DErr.outputOverrun ∧
    dstep [0x16, 65, 66, 67, 68, 69, 0x40, 0x01]
        ⟨8, 8, [65, 66, 67, 68, 69, 69, 69, 69], 1, .matchDone⟩ =
      .done 8 [65, 66, 67, 68, 69, 69, 69, 69] .outputOverrun := by decide

/-- C10 amended witness: the bare EOF marker decodes successfully, and the
success implication applies to it. -/
theorem c10_witness :
    ((Decompress [0x11, 0x00, 0x00] []).2.2 = .ok →
      ∃ s1 s2, dstep [0x11, 0x00, 0x00] s1 = .cont s2 ∧ s2.tag = DTag.eof ∧
        s1.tag = DTag.mtch ∧ s1.ip < (3 : Nat) ∧
        16 ≤ List.getD [0x11, 0x00, 0x00] s1.ip 0 ∧
        List.getD [0x11, 0x00, 0x00] s1.ip 0 < 32 ∧
        ((List.getD [0x11, 0x00, 0x00] s1.ip 0 &&& 8) <<< 11) +
          (List.getD [0x11, 0x00, 0x00] (s2.ip - 2) 0 <<< 6) +
          (List.getD [0x11, 0x00, 0x00] (s2.ip - 1) 0 >>> 2) = 0) ∧
    (∀ (fuel : Nat) (s : DState), s.ip = (3 : Nat) → s.tag ≠ DTag.eof →
      (dloop [0x11, 0x00, 0x00] fuel s).2.2 ≠ .ok ∧
      (dloop [0x11, 0x00, 0x00] fuel s).2.2 ≠ .lookbehindOverrun) :=
  c10_success_via_eof_marker [0x11, 0x00, 0x00] [] (by decide)


/-! ## C4: the encoder refuses unencodable matches, so every non-initial
literal run is empty or at least four bytes long -/

/-- Every non-first literal-run record in a trace has length at least 4. -/
def TraceOk (tr : List CEmit) : Prop := ∀ n, CEmit.lits false n ∈ tr → 4 ≤ n

theorem traceOk_nil : TraceOk [] := by
  intro n h
  cases h

theorem traceOk_append {t1 t2 : List CEmit} (h1 : TraceOk t1) (h2 : TraceOk t2) :
    TraceOk (t1 ++ t2) := by
  intro n h
  rcases List.mem_append.1 h with h | h
  · exact h1 n h
  · exact h2 n h

theorem compressLoop_traceOk (src : List Nat) (cap : Nat) : ∀ (fuel : Nat) (s : CState),
    TraceOk s.trace →
    (s.isFirstOutput = false →
      src.length - s.litStart = 0 ∨ 4 ≤ src.length - s.litStart) →
    (∀ s2, compressLoop src cap fuel s = .cont s2 → TraceOk s2.trace ∧
      (s2.isFirstOutput = false →
        src.length - s2.litStart = 0 ∨ 4 ≤ src.length - s2.litStart)) ∧
    (∀ out tr e, compressLoop src cap fuel s = .fail out tr e → TraceOk tr) := by
  intro fuel
  induction fuel with
  | zero =>
    intro s hTr hInv
    constructor
    · intro s2 hc
      simp only [compressLoop] at hc
      cases hc
    · intro out tr e hf
      simp only [compressLoop] at hf
      cases hf
      exact hTr
  | succ fuel ih =>
    intro s hTr hInv
    simp only [compressLoop]
    by_cases h1 : s.ip < src.length - 3
    swap
    · rw [if_neg h1]
      constructor
      · intro s2 hc
        cases hc
        exact ⟨hTr, hInv⟩
      · intro out tr e hf
        cases hf
    rw [if_pos h1]
    by_cases hcand : ((s.ip : Int) - s.ht (hashAt src s.ip) > 0 ∧
        (s.ip : Int) - s.ht (hashAt src s.ip) ≤ 0xbfff ∧
        s.ht (hashAt src s.ip) ≥ 0 ∧ s.ip + 4 ≤ src.length) ∧
        (src.getD (s.ht (hashAt src s.ip)).toNat 0 = src.getD s.ip 0 ∧
         src.getD ((s.ht (hashAt src s.ip)).toNat + 1) 0 = src.getD (s.ip + 1) 0 ∧
         src.getD ((s.ht (hashAt src s.ip)).toNat + 2) 0 = src.getD (s.ip + 2) 0)
    swap
    · rw [if_neg hcand]
      exact ih _ hTr hInv
    rw [if_pos hcand]
    by_cases hga : s.isFirstOutput = false ∧ 0 < s.ip - s.litStart ∧ s.ip - s.litStart < 4
    · rw [if_pos hga]
      exact ih _ hTr hInv
    rw [if_neg hga]
    by_cases hgb : 0 < src.length - (s.ip +
        extendLen src (s.ht (hashAt src s.ip)).toNat s.ip
          (min (src.length - s.ip) 264) (min (src.length - s.ip) 264) 3) ∧
        src.length - (s.ip +
          extendLen src (s.ht (hashAt src s.ip)).toNat s.ip
            (min (src.length - s.ip) 264) (min (src.length - s.ip) 264) 3) < 4
    · rw [if_pos hgb]
      exact ih _ hTr hInv
    rw [if_neg hgb]
    have hLR : TraceOk (s.trace ++
        (if 0 < s.ip - s.litStart then [CEmit.lits s.isFirstOutput (s.ip - s.litStart)]
          else [])) := by
      refine traceOk_append hTr ?_
      by_cases hl : 0 < s.ip - s.litStart
      · rw [if_pos hl]
        intro n hmem
        have h := List.mem_singleton.1 hmem
        injection h with hfo hn
        have hfo2 : s.isFirstOutput = false := hfo.symm
        subst hn
        have : ¬ (0 < s.ip - s.litStart ∧ s.ip - s.litStart < 4) := by
          intro hx
          exact hga ⟨hfo2, hx.1, hx.2⟩
        omega
      · rw [if_neg hl]
        exact traceOk_nil
    rcases hE : (if 0 < s.ip - s.litStart then
        emitLiterals ((src.drop s.litStart).take (s.ip - s.litStart))
          (cap - s.out.length) s.isFirstOutput
      else ([], EErr.ok)) with ⟨w, e⟩
    have hMrec : TraceOk [CEmit.mtch ((s.ip : Int) - s.ht (hashAt src s.ip)).toNat
        (extendLen src (s.ht (hashAt src s.ip)).toNat s.ip
          (min (src.length - s.ip) 264) (min (src.length - s.ip) 264) 3)] := by
      intro n hmem
      rcases List.mem_singleton.1 hmem with h
      cases h
    cases e with
    | outputOverrun =>
      dsimp only
      constructor
      · intro s2 hc
        cases hc
      · intro out tr e2 hf
        cases hf
        exact hLR
    | oob =>
      dsimp only
      constructor
      · intro s2 hc
        cases hc
      · intro out tr e2 hf
        cases hf
        exact hLR
    | fuelOut =>
      dsimp only
      constructor
      · intro s2 hc
        cases hc
      · intro out tr e2 hf
        cases hf
        exact hLR
    | ok =>
      dsimp only
      rcases hE2 : emitMatch (cap - (s.out.length + w.length))
          ((s.ip : Int) - s.ht (hashAt src s.ip)).toNat
          (extendLen src (s.ht (hashAt src s.ip)).toNat s.ip
            (min (src.length - s.ip) 264) (min (src.length - s.ip) 264) 3) with ⟨w2, e2⟩
      cases e2 with
      | outputOverrun =>
        dsimp only
        constructor
        · intro s2 hc
          cases hc
        · intro out tr e3 hf
          cases hf
          exact traceOk_append hLR hMrec
      | oob =>
        dsimp only
        constructor
        · intro s2 hc
          cases hc
        · intro out tr e3 hf
          cases hf
          exact traceOk_append hLR hMrec
      | fuelOut =>
        dsimp only
        constructor
        · intro s2 hc
          cases hc
        · intro out tr e3 hf
          cases hf
          exact traceOk_append hLR hMrec
      | ok =>
        dsimp only
        refine ih _ ?_ ?_
        · exact traceOk_append hLR hMrec
        · intro _
          dsimp only
          omega


theorem compressFull_traceOk (src : List Nat) (cap : Nat) :
    ∀ n, CEmit.lits false n ∈ (compressFull src cap).2.1 → 4 ≤ n := by
  intro n hmem
  unfold compressFull at hmem
  by_cases h0 : src.length = 0
  · rw [if_pos h0] at hmem
    cases hmem
  rw [if_neg h0] at hmem
  by_cases h3 : src.length ≤ 3
  · rw [if_pos h3] at hmem
    rcases hE : emitLiterals src cap true with ⟨w, e⟩
    rw [hE] at hmem
    cases e with
    | ok =>
      dsimp only at hmem
      split at hmem <;> dsimp only at hmem <;>
      · have h := List.mem_singleton.1 hmem
        injection h with hfo hn
        cases hfo
    | outputOverrun =>
      dsimp only at hmem
      have h := List.mem_singleton.1 hmem
      injection h with hfo hn
      cases hfo
    | oob =>
      dsimp only at hmem
      have h := List.mem_singleton.1 hmem
      injection h with hfo hn
      cases hfo
    | fuelOut =>
      dsimp only at hmem
      have h := List.mem_singleton.1 hmem
      injection h with hfo hn
      cases hfo
  rw [if_neg h3] at hmem
  have hmain := compressLoop_traceOk src cap src.length
    ⟨fun _ => -(0xbfff : Int), 0, 0, true, [], []⟩ traceOk_nil (by intro h; cases h)
  rcases hL : compressLoop src cap src.length
      ⟨fun _ => -(0xbfff : Int), 0, 0, true, [], []⟩ with s | ⟨out, tr, e⟩
  · rw [hL] at hmem
    dsimp only at hmem
    obtain ⟨hTr, hInv⟩ := hmain.1 s hL
    have hLR : TraceOk (s.trace ++
        (if 0 < src.length - s.litStart then
          [CEmit.lits s.isFirstOutput (src.length - s.litStart)] else [])) := by
      refine traceOk_append hTr ?_
      by_cases hl : 0 < src.length - s.litStart
      · rw [if_pos hl]
        intro m hm
        have h := List.mem_singleton.1 hm
        injection h with hfo hn
        subst hn
        rcases hInv hfo.symm with h | h
        · omega
        · exact h
      · rw [if_neg hl]
        exact traceOk_nil
    rcases hE : (if 0 < src.length - s.litStart then
        emitLiterals (src.drop s.litStart) (cap - s.out.length) s.isFirstOutput
      else ([], EErr.ok)) with ⟨w, e⟩
    rw [hE] at hmem
    cases e with
    | ok =>
      dsimp only at hmem
      split at hmem <;> dsimp only at hmem <;> exact hLR n hmem
    | outputOverrun =>
      dsimp only at hmem
      exact hLR n hmem
    | oob =>
      dsimp only at hmem
      exact hLR n hmem
    | fuelOut =>
      dsimp only at hmem
      exact hLR n hmem
  · rw [hL] at hmem
    dsimp only at hmem
    exact hmain.2 out tr e hL n hmem

/-- C4: the encoder refuses a candidate match when output has already
been emitted and the pending literal count is 1–3 (gate a), and when
accepting the match would leave 1–3 unprocessed bytes before end of input
(gate b) — in both cases the iteration only stores the hash slot and
advances one byte.  Consequently every non-initial literal run recorded
in the emission trace of `Compress` has length at least 4. -/
theorem c4_match_refusal_and_literal_quantisation (src : List Nat) (cap : Nat) :
    (∀ (fuel : Nat) (s : CState), s.ip < src.length - 3 →
      (((s.ip : Int) - s.ht (hashAt src s.ip) > 0 ∧
        (s.ip : Int) - s.ht (hashAt src s.ip) ≤ 0xbfff ∧
        s.ht (hashAt src s.ip) ≥ 0 ∧ s.ip + 4 ≤ src.length) ∧
       (src.getD (s.ht (hashAt src s.ip)).toNat 0 = src.getD s.ip 0 ∧
        src.getD ((s.ht (hashAt src s.ip)).toNat + 1) 0 = src.getD (s.ip + 1) 0 ∧
        src.getD ((s.ht (hashAt src s.ip)).toNat + 2) 0 = src.getD (s.ip + 2) 0)) →
      (s.isFirstOutput = false ∧ 0 < s.ip - s.litStart ∧ s.ip - s.litStart < 4) →
      compressLoop src cap (fuel + 1) s =
        compressLoop src cap fuel
          { s with ht := htSet s.ht (hashAt src s.ip) (s.ip : Int), ip := s.ip + 1 }) ∧
    (∀ (fuel : Nat) (s : CState), s.ip < src.length - 3 →
      (((s.ip : Int) - s.ht (hashAt src s.ip) > 0 ∧
        (s.ip : Int) - s.ht (hashAt src s.ip) ≤ 0xbfff ∧
        s.ht (hashAt src s.ip) ≥ 0 ∧ s.ip + 4 ≤ src.length) ∧
       (src.getD (s.ht (hashAt src s.ip)).toNat 0 = src.getD s.ip 0 ∧
        src.getD ((s.ht (hashAt src s.ip)).toNat + 1) 0 = src.getD (s.ip + 1) 0 ∧
        src.getD ((s.ht (hashAt src s.ip)).toNat + 2) 0 = src.getD (s.ip + 2) 0)) →
      ¬ (s.isFirstOutput = false ∧ 0 < s.ip - s.litStart ∧ s.ip - s.litStart < 4) →
      (0 < src.length - (s.ip +
        extendLen src (s.ht (hashAt src s.ip)).toNat s.ip
          (min (src.length - s.ip) 264) (min (src.length - s.ip) 264) 3) ∧
       src.length - (s.ip +
        extendLen src (s.ht (hashAt src s.ip)).toNat s.ip
          (min (src.length - s.ip) 264) (min (src.length - s.ip) 264) 3) < 4) →
      compressLoop src cap (fuel + 1) s =
        compressLoop src cap fuel
          { s with ht := htSet s.ht (hashAt src s.ip) (s.ip : Int), ip := s.ip + 1 }) ∧
    (∀ n, CEmit.lits false n ∈ (compressFull src cap).2.1 → 4 ≤ n) := by
  refine ⟨?_, ?_, compressFull_traceOk src cap⟩
  · intro fuel s h1 hcand hga
    conv_lhs => rw [compressLoop]
    rw [if_pos h1, if_pos hcand, if_pos hga]
  · intro fuel s h1 hcand hga hgb
    conv_lhs => rw [compressLoop]
    rw [if_pos h1, if_pos hcand, if_neg hga, if_pos hgb]


/-- C4 witness: concrete refused matches.  First conjunct: pending
literal count 2 with output already emitted (gate a); second: a length-3
match that would leave 2 trailing bytes (gate b).  Both iterations merely
store the hash slot and advance one position. -/
theorem c4_witness :
    compressLoop (List.replicate 10 9) 100 1
        ⟨fun _ => (0 : Int), 5, 3, false, [], []⟩ =
      compressLoop (List.replicate 10 9) 100 0
        { ht := htSet (fun _ => (0 : Int)) (hashAt (List.replicate 10 9) 5) (5 : Int),
          ip := 6, litStart := 3, isFirstOutput := false, out := [], trace := [] } ∧
    compressLoop [9, 9, 9, 1, 0, 9, 9, 9, 2, 0] 100 1
        ⟨fun _ => (0 : Int), 5, 0, true, [], []⟩ =
      compressLoop [9, 9, 9, 1, 0, 9, 9, 9, 2, 0] 100 0
        { ht := htSet (fun _ => (0 : Int)) (hashAt [9, 9, 9, 1, 0, 9, 9, 9, 2, 0] 5)
            (5 : Int),
          ip := 6, litStart := 0, isFirstOutput := true, out := [], trace := [] } :=
  ⟨(c4_match_refusal_and_literal_quantisation (List.replicate 10 9) 100).1 0
      ⟨fun _ => (0 : Int), 5, 3, false, [], []⟩ (by decide) (by decide) (by decide),
    (c4_match_refusal_and_literal_quantisation [9, 9, 9, 1, 0, 9, 9, 9, 2, 0] 100).2.1 0
      ⟨fun _ => (0 : Int), 5, 0, true, [], []⟩ (by decide) (by decide) (by decide)
      (by decide)⟩

end Lzo1z
